import Mathlib

/-!
A shallow embedding of `src/exceptiongroup/_formatting.py`: the
`_ExceptionPrintContext` class and the `traceback_exception_format` function
(the exception-group rendering core), together with the module constants
`max_group_width`, `max_group_depth`, `_cause_message` and `_context_message`.

Modelling decisions, all taken from the source:
* A `traceback.TracebackException` node is modelled by `TracebackExc`: its
  `__cause__`, `__context__`, `__suppress_context__` fields, the `exceptions`
  attribute set by `traceback_exception_init` (`none` for a non-group
  exception, `some children` for a `BaseExceptionGroup`), the already formatted
  frame list `stack.format()` (with `stack = []` playing the role of a falsy
  empty `StackSummary` in `if exc.stack:`), and the list of strings produced
  by `format_exception_only()`.
* The Python generator is modelled as a function returning the list of yielded
  string chunks in order.  Each chunk is paired with the value of
  `_ctx.exception_group_depth` at the moment of the yield, so that theorems
  can speak about the depth at which a line was emitted; dropping the first
  components of the pairs gives exactly the strings the generator yields.
* The mutable `_ExceptionPrintContext` is threaded explicitly: the renderer
  takes the context and returns the updated context.  The `seen` set of the
  Python class is initialised and never consulted by `format`, so it is not
  part of the state.
* `exception_group_depth` is an `Int`, like a Python `int`; the module
  globals `max_group_width` / `max_group_depth` become `Int` parameters
  `mgw` / `mgd` of the renderer (the wrappers apply the default constants).
* The two statements in the source that can raise — the list indexing
  `exc.exceptions[i]` (`IndexError`) and `assert _ctx.exception_group_depth
  == 1` (`AssertionError`) — are modelled with `Option`: `none` means the
  Python code would have raised.  Recursion is paid for by an explicit fuel
  parameter (`none` is also returned when fuel runs out); the interpreter is
  monotone in fuel and succeeds on enough fuel for every tree (proved below),
  so a `some` result at any fuel is the render result.
-/

namespace ExcGroupFmt

/-! ### Python string helpers -/

/-- `str.splitlines(keepends=True)` on a character list, for texts whose only
line break character is `'\n'` (the only break the formatter ever emits). -/
def splitC : List Char → List (List Char)
  | [] => []
  | c :: rest =>
    if c = '\n' then ['\n'] :: splitC rest
    else
      match splitC rest with
      | [] => [[c]]
      | l :: ls => (c :: l) :: ls

/-- Concatenation of a list of character lists. -/
def joinL : List (List Char) → List Char
  | [] => []
  | l :: ls => l ++ joinL ls

/-- `textwrap.indent(text, pre, lambda line: True)`: prepend `pre` to every
line of `text`, empty lines included (the predicate is constantly true). -/
def pyIndent (pre text : String) : String :=
  String.mk (joinL ((splitC text.data).map (fun l => pre.data ++ l)))

/-- `" " * n` for a Python integer `n` (empty for `n ≤ 0`). -/
def spacesI (n : Int) : String :=
  String.mk (List.replicate n.toNat ' ')

/-! ### Module constants (`_formatting.py` lines 15-23) -/

def max_group_width : Int := 15

def max_group_depth : Int := 10

def cause_message : String :=
  "\nThe above exception was the direct cause of the following exception:\n\n"

def context_message : String :=
  "\nDuring handling of the above exception, another exception occurred:\n\n"

/-! ### `_ExceptionPrintContext` (lines 84-104) -/

/-- The mutable rendering state.  `seen` is initialised by the Python
constructor but never read or written by `format`, so it is omitted. -/
structure ExceptionPrintContext where
  exception_group_depth : Int
  need_close : Bool
deriving DecidableEq, Repr

/-- `indent()`: `" " * (2 * self.exception_group_depth)`. -/
def ExceptionPrintContext.indent (ctx : ExceptionPrintContext) : String :=
  spacesI (2 * ctx.exception_group_depth)

/-- The body of `emit` for one text block: compute the prefix (indent, plus
`margin_char + " "` when the depth is nonzero, the margin defaulting to
`"|"`), and prepend it to every line of the block. -/
def ExceptionPrintContext.emitOne (ctx : ExceptionPrintContext)
    (marginChar : Option String) (text : String) : String :=
  let margin := marginChar.getD "|"
  let indentStr :=
    if ctx.exception_group_depth ≠ 0 then ctx.indent ++ margin ++ " "
    else ctx.indent
  pyIndent indentStr text

/-- `emit(text_gen, margin_char)`.  The Python method accepts one string or an
iterable of strings and yields one indented chunk per string; the single
string case is `emit [s]`. -/
def ExceptionPrintContext.emit (ctx : ExceptionPrintContext)
    (textGen : List String) (marginChar : Option String) : List String :=
  textGen.map (ctx.emitOne marginChar)

/-- Tag each chunk of an `emit` result with the depth at which it is yielded. -/
def tagD (ctx : ExceptionPrintContext) (chunks : List String) :
    List (Int × String) :=
  chunks.map (fun s => (ctx.exception_group_depth, s))

/-! ### The exception node -/

/-- A captured exception as `traceback_exception_format` consumes it. -/
inductive TracebackExc : Type where
  | mk (cause : Option TracebackExc) (context : Option TracebackExc)
      (suppress_context : Bool) (exceptions : Option (List TracebackExc))
      (stack : List String) (exc_only : List String) : TracebackExc

def TracebackExc.cause : TracebackExc → Option TracebackExc
  | .mk c _ _ _ _ _ => c

def TracebackExc.context : TracebackExc → Option TracebackExc
  | .mk _ c _ _ _ _ => c

def TracebackExc.suppress_context : TracebackExc → Bool
  | .mk _ _ s _ _ _ => s

def TracebackExc.exceptions : TracebackExc → Option (List TracebackExc)
  | .mk _ _ _ e _ _ => e

def TracebackExc.stack : TracebackExc → List String
  | .mk _ _ _ _ st _ => st

def TracebackExc.exc_only : TracebackExc → List String
  | .mk _ _ _ _ _ eo => eo

/-! ### The chain walk (lines 118-131) -/

/-- The `while exc:` loop of `traceback_exception_format`: collect
`(chained_msg, exc)` pairs, following `__cause__` first, else `__context__`
when `__suppress_context__` is false, else stopping; the terminal node is
paired with `none`.  Discovery order: the original node first. -/
def chainOutput : TracebackExc → List (Option String × TracebackExc)
  | e@(.mk (some c) _ _ _ _ _) => (some cause_message, e) :: chainOutput c
  | e@(.mk none (some c) false _ _ _) => (some context_message, e) :: chainOutput c
  | e => [(none, e)]

/-! ### `traceback_exception_format` (lines 107-197)

The generator is mutually recursive in three places: the whole call, the
`for msg, exc in reversed(output):` loop, and the `for i in range(n):` slot
loop of the group branch.  To obtain a function that the kernel can evaluate,
these three activations are defunctionalised into one inductive `FmtFrame`,
and `fmtF` interprets a frame by structural recursion on an explicit fuel
(every step consumes one unit; `none` means the fuel ran out, or one of the
two statements of the source that can raise would have raised).  The three
named wrappers below restore the shape of the source. -/

/-- One pending activation of the rendering code. -/
inductive FmtFrame : Type where
  | excCall (chain : Bool) (ctx : ExceptionPrintContext) (e : TracebackExc)
  | pairsLoop (chain : Bool) (ctx : ExceptionPrintContext)
      (l : List (Option String × TracebackExc))
  | slotsLoop (chain : Bool) (ctx : ExceptionPrintContext)
      (children : List TracebackExc) (nTotal : Nat) (idxs : List Nat)

/-- Lines 136-159 minus the group body: render the head pair of the
reversed-output loop when the head node is a leaf (`exceptions is None`):
optional `Traceback` header plus stack, then `format_exception_only()`,
then the remaining pairs. -/
def stepLeaf (rec : FmtFrame → Option (List (Int × String) × ExceptionPrintContext))
    (chain : Bool) (ctx : ExceptionPrintContext) (sepOut : List (Int × String))
    (exc : TracebackExc) (rest : List (Option String × TracebackExc)) :
    Option (List (Int × String) × ExceptionPrintContext) :=
  let stackOut :=
    if exc.stack.isEmpty then []
    else tagD ctx (ctx.emit ["Traceback (most recent call last):\n"] none)
      ++ tagD ctx (ctx.emit exc.stack none)
  let eoOut := tagD ctx (ctx.emit exc.exc_only none)
  (rec (.pairsLoop chain ctx rest)).bind fun pr =>
    some (sepOut ++ stackOut ++ eoOut ++ pr.1, pr.2)

/-- Lines 143-197: render the head pair when the head node is a group:
either the depth-truncation line (no descent), or the full group block —
optional group traceback header plus stack, `format_exception_only()`, the
slot loop over `range(n)`, and for a top-level group the final
`assert _ctx.exception_group_depth == 1` (`none` on failure) and the reset
to zero — followed by the remaining pairs. -/
def stepGroup (mgw mgd : Int)
    (rec : FmtFrame → Option (List (Int × String) × ExceptionPrintContext))
    (chain : Bool) (ctx : ExceptionPrintContext) (sepOut : List (Int × String))
    (exc : TracebackExc) (children : List TracebackExc)
    (rest : List (Option String × TracebackExc)) :
    Option (List (Int × String) × ExceptionPrintContext) :=
  if ctx.exception_group_depth > mgd then
    -- exception group, but depth exceeds limit
    (rec (.pairsLoop chain ctx rest)).bind fun pr =>
      some (sepOut ++ tagD ctx (ctx.emit
        ["... (max_group_depth is " ++ toString mgd ++ ")\n"] none) ++ pr.1, pr.2)
  else
    -- format exception group
    let isToplevel := ctx.exception_group_depth = 0
    let ctx1 :=
      if isToplevel then
        { ctx with exception_group_depth := ctx.exception_group_depth + 1 }
      else ctx
    let headOut :=
      if exc.stack.isEmpty then []
      else tagD ctx1 (ctx1.emit
          ["Exception Group Traceback (most recent call last):\n"]
          (if isToplevel then some "+" else none))
        ++ tagD ctx1 (ctx1.emit exc.stack none)
    let eoOut := tagD ctx1 (ctx1.emit exc.exc_only none)
    let numExcs := children.length
    let nSlots : Int := if (numExcs : Int) ≤ mgw then (numExcs : Int) else mgw + 1
    let ctx2 := { ctx1 with need_close := false }
    (rec (.slotsLoop chain ctx2 children nSlots.toNat
        (List.range nSlots.toNat))).bind fun sr =>
      (if isToplevel then
          -- assert _ctx.exception_group_depth == 1
          if sr.2.exception_group_depth = 1 then
            some { sr.2 with exception_group_depth := 0 }
          else none
        else some sr.2).bind fun ctx4 =>
        (rec (.pairsLoop chain ctx4 rest)).bind fun pr =>
          some (sepOut ++ headOut ++ eoOut ++ sr.1 ++ pr.1, pr.2)

/-- Lines 167-170: on the last slot (`i == n - 1`), set `need_close` before
rendering the slot. -/
def slotCtxA (i nTotal : Nat) (ctx : ExceptionPrintContext) :
    ExceptionPrintContext :=
  if i = nTotal - 1 then { ctx with need_close := true } else ctx

/-- Lines 190-192: after the slot body, if this is the last slot and the
closing frame is still owed, yield the closing line (at the still-raised
depth) and clear the flag; otherwise nothing. -/
def slotClose (i nTotal : Nat) (c : ExceptionPrintContext) :
    List (Int × String) × ExceptionPrintContext :=
  if i = nTotal - 1 ∧ c.need_close then
    ([(c.exception_group_depth,
       c.indent ++ "+------------------------------------\n")],
     { c with need_close := false })
  else ([], c)

/-- Lines 166-193: one slot `i` of `range(n)`: set `need_close` on the last
slot, emit the header line, raise the depth, render the child (or the
truncation summary), emit the owed closing frame when still owed on the last
slot, lower the depth, and continue with the remaining indices.  `none` on
`children[i]?` models the `IndexError` of `exc.exceptions[i]`. -/
def stepSlot (mgw _mgd : Int)
    (rec : FmtFrame → Option (List (Int × String) × ExceptionPrintContext))
    (chain : Bool) (ctx : ExceptionPrintContext)
    (children : List TracebackExc) (nTotal i : Nat) (rest : List Nat) :
    Option (List (Int × String) × ExceptionPrintContext) :=
  let ctxA := slotCtxA i nTotal ctx
  let truncated := (i : Int) ≥ mgw
  let title := if truncated then "..." else toString (i + 1)
  let headerOut : List (Int × String) :=
    [(ctxA.exception_group_depth,
      ctxA.indent ++ (if i = 0 then "+-" else "  ")
        ++ "+---------------- " ++ title ++ " ----------------\n")]
  let ctxB := { ctxA with exception_group_depth := ctxA.exception_group_depth + 1 }
  let inner? :=
    if truncated then
      let remaining := (children.length : Int) - mgw
      let plural := if remaining > 1 then "s" else ""
      some (tagD ctxB (ctxB.emit
        ["and " ++ toString remaining ++ " more exception" ++ plural ++ "\n"]
        none), ctxB)
    else
      children[i]?.bind fun child => rec (.excCall chain ctxB child)
  inner?.bind fun ir =>
    let closePair := slotClose i nTotal ir.2
    let ctxE := { closePair.2 with
      exception_group_depth := closePair.2.exception_group_depth - 1 }
    (rec (.slotsLoop chain ctxE children nTotal rest)).bind fun rr =>
      some (headerOut ++ ir.1 ++ closePair.1 ++ rr.1, rr.2)

/-- One interpretation step; `rec` interprets the frames of the recursive
calls (it is `fmtF` at one fuel unit less).  `excCall` covers lines 116-135
(chain walk, or the singleton `[(None, self)]` when `chain` is false, then
the loop over `reversed(output)`); the loop cases dispatch on the head node
to `stepLeaf` / `stepGroup` and to `stepSlot`. -/
def fmtStep (mgw mgd : Int)
    (rec : FmtFrame → Option (List (Int × String) × ExceptionPrintContext)) :
    FmtFrame → Option (List (Int × String) × ExceptionPrintContext)
  | .excCall chain ctx e =>
    rec (.pairsLoop chain ctx
      (if chain then chainOutput e else [(none, e)]).reverse)
  | .pairsLoop _ ctx [] => some ([], ctx)
  | .pairsLoop chain ctx ((msg, exc) :: rest) =>
    let sepOut : List (Int × String) :=
      msg.elim [] (fun m => tagD ctx (ctx.emit [m] none))
    exc.exceptions.elim (stepLeaf rec chain ctx sepOut exc rest)
      (fun children => stepGroup mgw mgd rec chain ctx sepOut exc children rest)
  | .slotsLoop _ ctx _ _ [] => some ([], ctx)
  | .slotsLoop chain ctx children nTotal (i :: rest) =>
    stepSlot mgw mgd rec chain ctx children nTotal i rest

/-- The fuelled interpreter: iterate `fmtStep`, `none` when the fuel is
exhausted.  Defined with a bare `Nat.rec` so that terms like `fmtF _ _ 100 _`
evaluate by iterated unfolding. -/
def fmtF (mgw mgd : Int) (fuel : Nat) : FmtFrame →
    Option (List (Int × String) × ExceptionPrintContext) :=
  Nat.rec (motive := fun _ => FmtFrame →
      Option (List (Int × String) × ExceptionPrintContext))
    (fun _ => none) (fun _ ih => fmtStep mgw mgd ih) fuel

theorem fmtF_zero (mgw mgd : Int) (fr : FmtFrame) :
    fmtF mgw mgd 0 fr = none := rfl

theorem fmtF_succ (mgw mgd : Int) (f : Nat) (fr : FmtFrame) :
    fmtF mgw mgd (f + 1) fr = fmtStep mgw mgd (fmtF mgw mgd f) fr := rfl

/-- A call of `traceback_exception_format(self, chain=chain, _ctx=_ctx)`. -/
def formatExcF (fuel : Nat) (mgw mgd : Int) (chain : Bool)
    (ctx : ExceptionPrintContext) (e : TracebackExc) :
    Option (List (Int × String) × ExceptionPrintContext) :=
  fmtF mgw mgd fuel (.excCall chain ctx e)

/-- The loop over `reversed(output)` with the remaining pairs `l`. -/
def formatPairsF (fuel : Nat) (mgw mgd : Int) (chain : Bool)
    (ctx : ExceptionPrintContext) (l : List (Option String × TracebackExc)) :
    Option (List (Int × String) × ExceptionPrintContext) :=
  fmtF mgw mgd fuel (.pairsLoop chain ctx l)

/-- The slot loop `for i in range(n):` with the remaining indices `idxs`. -/
def formatSlotsF (fuel : Nat) (mgw mgd : Int) (chain : Bool)
    (ctx : ExceptionPrintContext) (children : List TracebackExc)
    (nTotal : Nat) (idxs : List Nat) :
    Option (List (Int × String) × ExceptionPrintContext) :=
  fmtF mgw mgd fuel (.slotsLoop chain ctx children nTotal idxs)

/-- A fresh `_ExceptionPrintContext()`. -/
def freshCtx : ExceptionPrintContext := ⟨0, false⟩

/-- `traceback_exception_format(self, chain=chain)` with a fresh context and
the default module constants `max_group_width` / `max_group_depth`.  The
yielded strings are the second components of the chunks, in order.  Any
`fuel` on which the result is `some` gives the render result (`fmtF` is
monotone in fuel, proved below, and succeeds for some fuel on every tree). -/
def renderFormat (fuel : Nat) (chain : Bool) (e : TracebackExc) :
    Option (List (Int × String) × ExceptionPrintContext) :=
  formatExcF fuel max_group_width max_group_depth chain freshCtx e

/-! ### Concrete example trees used by the theorems -/

/-- A leaf exception with no frames, no chain links, one-line text `"A\n"`. -/
def leafA : TracebackExc := .mk none none false none [] ["A\n"]

def leafB : TracebackExc := .mk none none false none [] ["B\n"]

def leafX : TracebackExc := .mk none none false none [] ["X\n"]

/-- A top-level group with two leaf children. -/
def grp2 : TracebackExc :=
  .mk none none false (some [leafA, leafB]) []
    ["ExceptionGroup: g (2 sub-exceptions)\n"]

/-- A group with a single leaf child (used nested inside another group). -/
def grpInner : TracebackExc :=
  .mk none none false (some [leafA]) [] ["EG\n"]

def grp20 : TracebackExc :=
  .mk none none false (some (List.replicate 20 leafX)) [] ["EG20\n"]

def grp16 : TracebackExc :=
  .mk none none false (some (List.replicate 16 leafX)) [] ["EG16\n"]

/-- `grpNest k` is a chain of `k + 1` nested groups; the innermost one has two
leaf children. -/
def grpNest : Nat → TracebackExc
  | 0 => .mk none none false (some [leafA, leafB]) [] ["EG\n"]
  | k + 1 => .mk none none false (some [grpNest k]) [] ["EG\n"]

/-- Leaf `B` whose `__context__` is `A` with `__suppress_context__` set. -/
def leafBsup : TracebackExc := .mk none (some leafA) true none [] ["B\n"]

/-- Leaf `B` whose `__cause__` is `A`, with one stack line. -/
def leafBcause : TracebackExc :=
  .mk (some leafA) none false none ["  stkB\n"] ["B\n"]

/-- The expected chunks of `renderFormat true grp2`. -/
def grp2Out : List (Int × String) :=
  [(1, "  | ExceptionGroup: g (2 sub-exceptions)\n"),
   (1, "  +-+---------------- 1 ----------------\n"),
   (2, "    | A\n"),
   (1, "    +---------------- 2 ----------------\n"),
   (2, "    | B\n"),
   (2, "    +------------------------------------\n")]

/-! ### C1: closing-frame correctness -/

/-- C1.  For the top-level group `grp2` with children `[leaf, leaf]`
(`chain = true`, fresh context) the rendered output is exactly `grp2Out`:
it contains exactly one chunk ending in the closing frame line
`"+------------------------------------\n"`, and that chunk is the last one,
after the entire block of the second child (the first child's block, chunk
index 2, is followed by the next slot header, not by a closing line).  In
general, on the last slot, when the recursive call for the child has itself
cleared `need_close`, the ancestor emits the slot header and the child's
chunks and no closing line at all. -/
theorem closing_frame_correct :
    (renderFormat 100 true grp2 = some (grp2Out, freshCtx) ∧
      (grp2Out.filter (fun p =>
        List.isSuffixOf "+------------------------------------\n".data p.2.data)).length
        = 1 ∧
      grp2Out.getLast? = some (2, "    +------------------------------------\n")) ∧
    ∀ (f : Nat) (mgw mgd : Int) (chain : Bool) (ctx : ExceptionPrintContext)
      (children : List TracebackExc) (nT i : Nat) (child : TracebackExc)
      (cOut : List (Int × String)) (cCtx : ExceptionPrintContext),
      i = nT - 1 → ¬((i : Int) ≥ mgw) → children[i]? = some child →
      formatExcF f mgw mgd chain ⟨ctx.exception_group_depth + 1, true⟩ child
        = some (cOut, cCtx) →
      cCtx.need_close = false →
      formatSlotsF (f + 1) mgw mgd chain ctx children nT [i] =
        some ((ctx.exception_group_depth,
            ctx.indent ++ (if i = 0 then "+-" else "  ")
              ++ "+---------------- " ++ toString (i + 1)
              ++ " ----------------\n") :: cOut,
          ⟨cCtx.exception_group_depth - 1, false⟩) := by
  constructor
  · refine ⟨by decide, by decide, by decide⟩
  · intro f mgw mgd chain ctx children nT i child cOut cCtx hi htr hget hrec hnc
    subst hi
    obtain ⟨g, rfl⟩ : ∃ g, f = g + 1 := by
      cases f with
      | zero => exact absurd hrec (by simp [formatExcF, fmtF])
      | succ g => exact ⟨g, rfl⟩
    simp only [formatSlotsF, fmtF_succ, fmtStep, stepSlot, slotCtxA,
      if_pos rfl, if_neg htr, hget]
    simp only [formatExcF, fmtF_succ, fmtStep] at hrec
    simp [hrec, hnc, slotClose, ExceptionPrintContext.indent]

/-- Witness for the general part of `closing_frame_correct`: the last slot
(index 1 of 2) whose child `grpInner` has already emitted its own closing
frame yields only the slot header and the child's chunks — no second
closing line. -/
theorem closing_frame_correct_witness :
    ((1 : Nat) = 2 - 1) ∧ (¬((1 : Nat) : Int) ≥ 15) ∧
    ([leafA, grpInner][1]? = some grpInner) ∧
    (formatExcF 20 15 10 true
        ⟨(⟨1, false⟩ : ExceptionPrintContext).exception_group_depth + 1, true⟩
        grpInner
      = some ([((2 : Int), "    | EG\n"),
               ((2 : Int), "    +-+---------------- 1 ----------------\n"),
               ((3 : Int), "      | A\n"),
               ((3 : Int), "      +------------------------------------\n")],
              ⟨2, false⟩)) ∧
    ((⟨2, false⟩ : ExceptionPrintContext).need_close = false) ∧
    formatSlotsF (20 + 1) 15 10 true ⟨1, false⟩ [leafA, grpInner] 2 [1] =
      some (((⟨1, false⟩ : ExceptionPrintContext).exception_group_depth,
          (⟨1, false⟩ : ExceptionPrintContext).indent
            ++ (if 1 = 0 then "+-" else "  ")
            ++ "+---------------- " ++ toString (1 + 1) ++ " ----------------\n")
          :: [((2 : Int), "    | EG\n"),
              ((2 : Int), "    +-+---------------- 1 ----------------\n"),
              ((3 : Int), "      | A\n"),
              ((3 : Int), "      +------------------------------------\n")],
        ⟨(⟨2, false⟩ : ExceptionPrintContext).exception_group_depth - 1, false⟩) := by
  refine ⟨rfl, by decide, rfl, by decide, rfl, ?_⟩
  exact closing_frame_correct.2 20 15 10 true ⟨1, false⟩ [leafA, grpInner] 2 1
    grpInner _ ⟨2, false⟩ rfl (by decide) rfl (by decide) rfl

/-! ### C3: width truncation -/

/-- The expected chunks of `renderFormat _ true grp20`. -/
def grp20Out : List (Int × String) :=
  [(1, "  | EG20\n"),
   ((1 : Int), "  +-+---------------- 1 ----------------\n"), ((2 : Int), "    | X\n"),
   ((1 : Int), "    +---------------- 2 ----------------\n"), ((2 : Int), "    | X\n"),
   ((1 : Int), "    +---------------- 3 ----------------\n"), ((2 : Int), "    | X\n"),
   ((1 : Int), "    +---------------- 4 ----------------\n"), ((2 : Int), "    | X\n"),
   ((1 : Int), "    +---------------- 5 ----------------\n"), ((2 : Int), "    | X\n"),
   ((1 : Int), "    +---------------- 6 ----------------\n"), ((2 : Int), "    | X\n"),
   ((1 : Int), "    +---------------- 7 ----------------\n"), ((2 : Int), "    | X\n"),
   ((1 : Int), "    +---------------- 8 ----------------\n"), ((2 : Int), "    | X\n"),
   ((1 : Int), "    +---------------- 9 ----------------\n"), ((2 : Int), "    | X\n"),
   ((1 : Int), "    +---------------- 10 ----------------\n"), ((2 : Int), "    | X\n"),
   ((1 : Int), "    +---------------- 11 ----------------\n"), ((2 : Int), "    | X\n"),
   ((1 : Int), "    +---------------- 12 ----------------\n"), ((2 : Int), "    | X\n"),
   ((1 : Int), "    +---------------- 13 ----------------\n"), ((2 : Int), "    | X\n"),
   ((1 : Int), "    +---------------- 14 ----------------\n"), ((2 : Int), "    | X\n"),
   ((1 : Int), "    +---------------- 15 ----------------\n"), ((2 : Int), "    | X\n"),
   ((1 : Int), "    +---------------- ... ----------------\n"),
   ((2 : Int), "    | and 5 more exceptions\n"),
   ((2 : Int), "    +------------------------------------\n")]

/-- The expected chunks of `renderFormat _ true grp16`. -/
def grp16Out : List (Int × String) :=
  [(1, "  | EG16\n"),
   ((1 : Int), "  +-+---------------- 1 ----------------\n"), ((2 : Int), "    | X\n"),
   ((1 : Int), "    +---------------- 2 ----------------\n"), ((2 : Int), "    | X\n"),
   ((1 : Int), "    +---------------- 3 ----------------\n"), ((2 : Int), "    | X\n"),
   ((1 : Int), "    +---------------- 4 ----------------\n"), ((2 : Int), "    | X\n"),
   ((1 : Int), "    +---------------- 5 ----------------\n"), ((2 : Int), "    | X\n"),
   ((1 : Int), "    +---------------- 6 ----------------\n"), ((2 : Int), "    | X\n"),
   ((1 : Int), "    +---------------- 7 ----------------\n"), ((2 : Int), "    | X\n"),
   ((1 : Int), "    +---------------- 8 ----------------\n"), ((2 : Int), "    | X\n"),
   ((1 : Int), "    +---------------- 9 ----------------\n"), ((2 : Int), "    | X\n"),
   ((1 : Int), "    +---------------- 10 ----------------\n"), ((2 : Int), "    | X\n"),
   ((1 : Int), "    +---------------- 11 ----------------\n"), ((2 : Int), "    | X\n"),
   ((1 : Int), "    +---------------- 12 ----------------\n"), ((2 : Int), "    | X\n"),
   ((1 : Int), "    +---------------- 13 ----------------\n"), ((2 : Int), "    | X\n"),
   ((1 : Int), "    +---------------- 14 ----------------\n"), ((2 : Int), "    | X\n"),
   ((1 : Int), "    +---------------- 15 ----------------\n"), ((2 : Int), "    | X\n"),
   ((1 : Int), "    +---------------- ... ----------------\n"),
   ((2 : Int), "    | and 1 more exception\n"),
   ((2 : Int), "    +------------------------------------\n")]

/-- C3.  With the default `max_group_width = 15`: the slot loop receives
`num` indices when `num ≤ 15` and `16` otherwise; the sixteenth slot (index
15, reached exactly when the group is truncated) renders the `"..."` header,
the summary line `"and {num - 15} more exception{s}\n"` with the plural `"s"`
iff the remainder exceeds 1, and the closing frame; concretely, a group of 20
children renders 15 numbered slots and `"and 5 more exceptions\n"`, and a
group of 16 children renders 15 numbered slots and
`"and 1 more exception\n"`. -/
theorem group_width_truncation :
    (∀ num : Nat,
      (List.range ((if (num : Int) ≤ max_group_width then (num : Int)
          else max_group_width + 1).toNat)).length
        = if num ≤ 15 then num else 16) ∧
    (∀ (f : Nat) (mgd : Int) (chain : Bool) (ctx : ExceptionPrintContext)
        (children : List TracebackExc),
      formatSlotsF (f + 2) 15 mgd chain ctx children 16 [15] =
        some ([(ctx.exception_group_depth,
            ctx.indent ++ "  " ++ "+---------------- " ++ "..."
              ++ " ----------------\n"),
           (ctx.exception_group_depth + 1,
            ExceptionPrintContext.emitOne
              ⟨ctx.exception_group_depth + 1, true⟩ none
              ("and " ++ toString ((children.length : Int) - 15)
                ++ " more exception"
                ++ (if (children.length : Int) - 15 > 1 then "s" else "")
                ++ "\n")),
           (ctx.exception_group_depth + 1,
            ExceptionPrintContext.indent ⟨ctx.exception_group_depth + 1, true⟩
              ++ "+------------------------------------\n")],
          ⟨ctx.exception_group_depth, false⟩)) ∧
    renderFormat 100 true grp20 = some (grp20Out, freshCtx) ∧
    renderFormat 100 true grp16 = some (grp16Out, freshCtx) := by
  refine ⟨?_, ?_, by decide, by decide⟩
  · intro num
    simp only [List.length_range, max_group_width]
    split_ifs with h1 h2 <;> omega
  · intro f mgd chain ctx children
    simp only [formatSlotsF, fmtF_succ, fmtStep, stepSlot]
    norm_num [slotCtxA, slotClose, tagD, ExceptionPrintContext.emit,
      ExceptionPrintContext.indent]

/-- The expected chunks of `renderFormat _ true (grpNest 10)`: ten levels of
groups rendered normally, then the depth-truncation line and the single
closing frame, both at depth 11. -/
def nestOut : List (Int × String) :=
  [((1 : Int), "  | EG\n"),
   ((1 : Int), "  +-+---------------- 1 ----------------\n"),
   ((2 : Int), "    | EG\n"),
   ((2 : Int), "    +-+---------------- 1 ----------------\n"),
   ((3 : Int), "      | EG\n"),
   ((3 : Int), "      +-+---------------- 1 ----------------\n"),
   ((4 : Int), "        | EG\n"),
   ((4 : Int), "        +-+---------------- 1 ----------------\n"),
   ((5 : Int), "          | EG\n"),
   ((5 : Int), "          +-+---------------- 1 ----------------\n"),
   ((6 : Int), "            | EG\n"),
   ((6 : Int), "            +-+---------------- 1 ----------------\n"),
   ((7 : Int), "              | EG\n"),
   ((7 : Int), "              +-+---------------- 1 ----------------\n"),
   ((8 : Int), "                | EG\n"),
   ((8 : Int), "                +-+---------------- 1 ----------------\n"),
   ((9 : Int), "                  | EG\n"),
   ((9 : Int), "                  +-+---------------- 1 ----------------\n"),
   ((10 : Int), "                    | EG\n"),
   ((10 : Int), "                    +-+---------------- 1 ----------------\n"),
   ((11 : Int), "                      | ... (max_group_depth is 10)\n"),
   ((11 : Int), "                      +------------------------------------\n")]

/-- C4.  A group reached while the depth exceeds `max_group_depth = 10`
renders as the single line `"... (max_group_depth is 10)\n"` (the string the
code builds from the constant equals that literal), with no descent into any
children and no change to the context; concretely, eleven nested groups
render their first ten levels normally and the eleventh as only that line,
regardless of the two children the deepest group has. -/
theorem group_depth_truncation :
    ("... (max_group_depth is " ++ toString max_group_depth ++ ")\n"
      = "... (max_group_depth is 10)\n") ∧
    (∀ (f : Nat) (mgw : Int) (chain : Bool) (ctx : ExceptionPrintContext)
        (children : List TracebackExc) (st eo : List String),
      ctx.exception_group_depth > max_group_depth →
      formatExcF (f + 3) mgw max_group_depth chain ctx
          (.mk none none false (some children) st eo)
        = some (tagD ctx
            (ctx.emit ["... (max_group_depth is 10)\n"] none), ctx)) ∧
    renderFormat 100 true (grpNest 10) = some (nestOut, freshCtx) := by
  refine ⟨by decide, ?_, by decide⟩
  intro f mgw chain ctx children st eo h
  have hc : chainOutput (.mk none none false (some children) st eo)
      = [(none, .mk none none false (some children) st eo)] := rfl
  rw [show ("... (max_group_depth is 10)\n")
      = "... (max_group_depth is " ++ toString max_group_depth ++ ")\n" from by decide]
  simp only [formatExcF, fmtF_succ, fmtStep, stepGroup, hc, ite_self,
    List.reverse_cons, List.reverse_nil, List.nil_append,
    TracebackExc.exceptions, Option.elim, if_pos h]
  simp

/-- Witness for `group_depth_truncation`: at depth 11 a two-child group
renders as the single truncation line. -/
theorem group_depth_truncation_witness :
    ((⟨11, false⟩ : ExceptionPrintContext).exception_group_depth
      > max_group_depth) ∧
    formatExcF (0 + 3) 15 max_group_depth true ⟨11, false⟩
        (.mk none none false (some [leafA, leafB]) [] ["EG\n"])
      = some (tagD ⟨11, false⟩
          ((⟨11, false⟩ : ExceptionPrintContext).emit
            ["... (max_group_depth is 10)\n"] none),
        ⟨11, false⟩) :=
  ⟨by decide, group_depth_truncation.2.1 0 15 true ⟨11, false⟩ [leafA, leafB]
    [] ["EG\n"] (by decide)⟩

/-! ### C10: the empty group -/

/-- C10.  A group node with an empty `exceptions` list renders (fresh
context, `chain = true`) exactly its group traceback header plus stack (when
a stack is present) and its `format_exception_only()` text, all at depth 1 —
and nothing else: no slot header, no truncation slot, and no closing frame
line. -/
theorem empty_group_render :
    ∀ (f : Nat) (st eo : List String),
      renderFormat (f + 3) true (.mk none none false (some []) st eo) =
        some ((if st.isEmpty then [] else
            ((1 : Int), ExceptionPrintContext.emitOne ⟨1, false⟩ (some "+")
              "Exception Group Traceback (most recent call last):\n") ::
            st.map (fun t => ((1 : Int),
              ExceptionPrintContext.emitOne ⟨1, false⟩ none t)))
          ++ eo.map (fun t => ((1 : Int),
              ExceptionPrintContext.emitOne ⟨1, false⟩ none t)),
          freshCtx) := by
  intro f st eo
  have hc : chainOutput (.mk none none false (some []) st eo)
      = [(none, .mk none none false (some []) st eo)] := rfl
  simp only [renderFormat, formatExcF, fmtF_succ, fmtStep, stepGroup, hc,
    ite_self, List.reverse_cons, List.reverse_nil, List.nil_append,
    TracebackExc.exceptions, TracebackExc.stack, TracebackExc.exc_only,
    Option.elim, freshCtx, max_group_width, max_group_depth]
  norm_num [tagD, ExceptionPrintContext.emit, List.map_map]
  cases st <;> (simp [tagD]; try rfl)

/-! ### C2: the chain walker -/

theorem chainOutput_ne_nil (e : TracebackExc) : chainOutput e ≠ [] := by
  cases e with
  | mk cause context sup excs st eo =>
    cases cause with
    | some c => simp [chainOutput]
    | none =>
      cases context with
      | some c => cases sup <;> simp [chainOutput]
      | none => simp [chainOutput]

/-- Along the discovery order, every pair except the terminal one carries a
separator message, and the terminal pair carries `none`. -/
theorem chainOutput_spine_aux : ∀ (k : Nat) (e : TracebackExc), sizeOf e ≤ k →
    ((chainOutput e).getLast?.map Prod.fst = some none ∧
      ∀ p ∈ (chainOutput e).dropLast, p.1.isSome = true) := by
  intro k
  induction k with
  | zero =>
    intro e h
    exact absurd h (by cases e; simp_arith)
  | succ k ih =>
    intro e h
    cases e with
    | mk cause context sup excs st eo =>
      cases cause with
      | some c =>
        have hs : sizeOf c ≤ k := by simp_arith at h; omega
        obtain ⟨ih1, ih2⟩ := ih c hs
        rw [show chainOutput (.mk (some c) context sup excs st eo)
            = (some cause_message, .mk (some c) context sup excs st eo)
              :: chainOutput c from by simp [chainOutput]]
        obtain ⟨q, l', hql⟩ : ∃ q l', chainOutput c = q :: l' := by
          cases hcc : chainOutput c with
          | nil => exact absurd hcc (chainOutput_ne_nil c)
          | cons q l' => exact ⟨q, l', rfl⟩
        rw [hql] at ih1 ih2
        rw [hql]
        refine ⟨by rw [List.getLast?_cons_cons]; exact ih1, ?_⟩
        intro p hp
        rw [List.dropLast_cons₂] at hp
        rcases List.mem_cons.mp hp with hp | hp
        · subst hp; simp
        · exact ih2 p hp
      | none =>
        cases context with
        | some c =>
          cases sup with
          | false =>
            have hs : sizeOf c ≤ k := by simp_arith at h; omega
            obtain ⟨ih1, ih2⟩ := ih c hs
            rw [show chainOutput (.mk none (some c) false excs st eo)
                = (some context_message, .mk none (some c) false excs st eo)
                  :: chainOutput c from by simp [chainOutput]]
            obtain ⟨q, l', hql⟩ : ∃ q l', chainOutput c = q :: l' := by
              cases hcc : chainOutput c with
              | nil => exact absurd hcc (chainOutput_ne_nil c)
              | cons q l' => exact ⟨q, l', rfl⟩
            rw [hql] at ih1 ih2
            rw [hql]
            refine ⟨by rw [List.getLast?_cons_cons]; exact ih1, ?_⟩
            intro p hp
            rw [List.dropLast_cons₂] at hp
            rcases List.mem_cons.mp hp with hp | hp
            · subst hp; simp
            · exact ih2 p hp
          | true =>
            rw [show chainOutput (.mk none (some c) true excs st eo)
                = [(none, .mk none (some c) true excs st eo)] from by
                  simp [chainOutput]]
            exact ⟨by simp, by simp⟩
        | none =>
          rw [show chainOutput (.mk none none sup excs st eo)
              = [(none, .mk none none sup excs st eo)] from by
                simp [chainOutput]]
          exact ⟨by simp, by simp⟩

/-- C2.  The chain walker follows `__cause__` first, else `__context__` when
`__suppress_context__` is unset, else stops; rendering iterates the reversed
discovery list, so the oldest chain ancestor prints first; the terminal
(oldest) pair — the first rendered slot — has separator `none` while every
earlier-discovered pair carries the separator captured when its link was
followed; a node with `suppress_context` set and no cause renders exactly as
with `chain = false`, and concretely `leafBsup` renders only its own block
while `leafBcause` renders cause first, then the separator, then itself. -/
theorem chain_walk_rule :
    (∀ (cause context : Option TracebackExc) (sup : Bool)
        (excs : Option (List TracebackExc)) (st eo : List String),
      chainOutput (.mk cause context sup excs st eo) =
        match cause, context, sup with
        | some c, _, _ =>
          (some cause_message, .mk cause context sup excs st eo) :: chainOutput c
        | none, some c, false =>
          (some context_message, .mk cause context sup excs st eo) :: chainOutput c
        | none, _, _ => [(none, .mk cause context sup excs st eo)]) ∧
    (∀ (f : Nat) (mgw mgd : Int) (ctx : ExceptionPrintContext) (e : TracebackExc),
      formatExcF (f + 1) mgw mgd true ctx e
        = formatPairsF f mgw mgd true ctx (chainOutput e).reverse) ∧
    (∀ e : TracebackExc,
      (chainOutput e).getLast?.map Prod.fst = some none ∧
      ∀ p ∈ (chainOutput e).dropLast, p.1.isSome = true) ∧
    (∀ (f : Nat) (mgw mgd : Int) (ctx : ExceptionPrintContext)
        (context : Option TracebackExc) (excs : Option (List TracebackExc))
        (st eo : List String),
      formatExcF (f + 1) mgw mgd true ctx (.mk none context true excs st eo)
        = formatPairsF f mgw mgd true ctx
            [(none, .mk none context true excs st eo)]) ∧
    renderFormat 100 true leafBsup = some ([(0, "B\n")], freshCtx) ∧
    renderFormat 100 true leafBcause = some
      ([(0, "A\n"),
        (0, "\nThe above exception was the direct cause of the following exception:\n\n"),
        (0, "Traceback (most recent call last):\n"),
        (0, "  stkB\n"),
        (0, "B\n")], freshCtx) := by
  refine ⟨?_, ?_, ?_, ?_, by decide, by decide⟩
  · intro cause context sup excs st eo
    cases cause with
    | some c => simp [chainOutput]
    | none =>
      cases context with
      | some c => cases sup <;> simp [chainOutput]
      | none => simp [chainOutput]
  · intro f mgw mgd ctx e
    rfl
  · intro e
    exact chainOutput_spine_aux (sizeOf e) e le_rfl
  · intro f mgw mgd ctx context excs st eo
    cases context <;> rfl

/-- Witness for the quantified spine part of `chain_walk_rule`: the one
non-terminal pair of `chainOutput leafBcause` carries its separator. -/
theorem chain_walk_rule_witness :
    ((some cause_message, leafBcause) ∈ (chainOutput leafBcause).dropLast) ∧
    (((some cause_message, leafBcause) :
        Option String × TracebackExc).1.isSome = true) := by
  have hm : (some cause_message, leafBcause) ∈ (chainOutput leafBcause).dropLast := by
    rw [show (chainOutput leafBcause).dropLast
        = [(some cause_message, leafBcause)] from rfl]
    exact List.mem_singleton.mpr rfl
  exact ⟨hm, (chain_walk_rule.2.2.1 leafBcause).2 _ hm⟩




/-! ### Depth restoration, fuel monotonicity, sufficiency -/

/-- The print context a frame runs in. -/
def FmtFrame.fctx : FmtFrame → ExceptionPrintContext
  | .excCall _ c _ => c
  | .pairsLoop _ c _ => c
  | .slotsLoop _ c _ _ _ => c

theorem slotCtxA_depth (i nTotal : Nat) (ctx : ExceptionPrintContext) :
    (slotCtxA i nTotal ctx).exception_group_depth = ctx.exception_group_depth := by
  unfold slotCtxA; split <;> rfl

theorem slotClose_depth (i nTotal : Nat) (c : ExceptionPrintContext) :
    (slotClose i nTotal c).2.exception_group_depth = c.exception_group_depth := by
  unfold slotClose; split <;> rfl

/-- Every activation restores `exception_group_depth`: whenever the
interpreter returns, the final context carries the depth it started with. -/
theorem fmtF_depth : ∀ (f : Nat) (mgw mgd : Int) (fr : FmtFrame)
    (r : List (Int × String) × ExceptionPrintContext),
    fmtF mgw mgd f fr = some r →
    r.2.exception_group_depth = fr.fctx.exception_group_depth := by
  intro f
  induction f with
  | zero => intro mgw mgd fr r h; rw [fmtF_zero] at h; cases h
  | succ f ih =>
    intro mgw mgd fr r h
    rw [fmtF_succ] at h
    cases fr with
    | excCall chain ctx e =>
      simp only [fmtStep] at h
      simpa [FmtFrame.fctx] using ih mgw mgd _ _ h
    | pairsLoop chain ctx l =>
      cases l with
      | nil => simp only [fmtStep] at h; cases h; rfl
      | cons p rest =>
        obtain ⟨msg, exc⟩ := p
        obtain ⟨cause, context, sup, excs, st, eo⟩ := exc
        cases excs with
        | none =>
          simp only [fmtStep, TracebackExc.exceptions, Option.elim, stepLeaf,
            Option.bind_eq_some, Option.some.injEq] at h
          obtain ⟨pr, hpr, h⟩ := h
          subst h
          simpa [FmtFrame.fctx] using ih mgw mgd _ _ hpr
        | some children =>
          simp only [fmtStep, TracebackExc.exceptions, Option.elim,
            stepGroup] at h
          by_cases hd : ctx.exception_group_depth > mgd
          · rw [if_pos hd] at h
            simp only [Option.bind_eq_some, Option.some.injEq] at h
            obtain ⟨pr, hpr, h⟩ := h
            subst h
            simpa [FmtFrame.fctx] using ih mgw mgd _ _ hpr
          · rw [if_neg hd] at h
            simp only [Option.bind_eq_some, Option.some.injEq] at h
            obtain ⟨sr, hsr, ctx4, hc4, pr, hpr, h⟩ := h
            subst h
            have hsrd := ih mgw mgd _ _ hsr
            have hprd := ih mgw mgd _ _ hpr
            simp only [FmtFrame.fctx] at hsrd hprd ⊢
            by_cases ht : ctx.exception_group_depth = 0
            · rw [if_pos ht] at hc4 hsrd
              rw [if_pos (by rw [hsrd]; simp [ht])] at hc4
              simp only [Option.some.injEq] at hc4
              subst hc4
              rw [hprd]
              simp [ht]
            · rw [if_neg ht] at hc4 hsrd
              simp only [Option.some.injEq] at hc4
              subst hc4
              rw [hprd, hsrd]
    | slotsLoop chain ctx children nTotal idxs =>
      cases idxs with
      | nil => simp only [fmtStep] at h; cases h; rfl
      | cons i rest =>
        simp only [fmtStep, stepSlot] at h
        by_cases htr : (i : Int) ≥ mgw
        · rw [if_pos htr] at h
          simp only [Option.some_bind, Option.bind_eq_some,
            Option.some.injEq] at h
          obtain ⟨rr, hrr, h⟩ := h
          subst h
          have hrrd := ih mgw mgd _ _ hrr
          simp only [FmtFrame.fctx] at hrrd ⊢
          rw [hrrd, slotClose_depth]
          simp only [slotCtxA_depth]
          omega
        · simp only [if_neg htr] at h
          simp only [Option.some_bind, Option.bind_eq_some,
            Option.some.injEq] at h
          obtain ⟨ir, ⟨child, hchild, hir⟩, rr, hrr, h⟩ := h
          subst h
          have hird := ih mgw mgd _ _ hir
          have hrrd := ih mgw mgd _ _ hrr
          simp only [FmtFrame.fctx] at hird hrrd ⊢
          rw [hrrd, slotClose_depth, hird]
          simp only [slotCtxA_depth]
          omega


/-- One extra unit of fuel preserves any successful result. -/
theorem fmtF_mono_succ : ∀ (f : Nat) (mgw mgd : Int) (fr : FmtFrame)
    (r : List (Int × String) × ExceptionPrintContext),
    fmtF mgw mgd f fr = some r → fmtF mgw mgd (f + 1) fr = some r := by
  intro f
  induction f with
  | zero => intro mgw mgd fr r h; rw [fmtF_zero] at h; cases h
  | succ f ih =>
    intro mgw mgd fr r h
    rw [fmtF_succ] at h
    rw [fmtF_succ]
    cases fr with
    | excCall chain ctx e =>
      simp only [fmtStep] at h ⊢
      exact ih mgw mgd _ _ h
    | pairsLoop chain ctx l =>
      cases l with
      | nil => exact h
      | cons p rest =>
        obtain ⟨msg, exc⟩ := p
        obtain ⟨cause, context, sup, excs, st, eo⟩ := exc
        cases excs with
        | none =>
          simp only [fmtStep, TracebackExc.exceptions, Option.elim, stepLeaf,
            Option.bind_eq_some, Option.some.injEq] at h ⊢
          obtain ⟨pr, hpr, h⟩ := h
          exact ⟨pr, ih mgw mgd _ _ hpr, h⟩
        | some children =>
          simp only [fmtStep, TracebackExc.exceptions, Option.elim,
            stepGroup] at h ⊢
          by_cases hd : ctx.exception_group_depth > mgd
          · rw [if_pos hd] at h ⊢
            simp only [Option.bind_eq_some, Option.some.injEq] at h ⊢
            obtain ⟨pr, hpr, h⟩ := h
            exact ⟨pr, ih mgw mgd _ _ hpr, h⟩
          · rw [if_neg hd] at h ⊢
            simp only [Option.bind_eq_some, Option.some.injEq] at h ⊢
            obtain ⟨sr, hsr, ctx4, hc4, pr, hpr, h⟩ := h
            exact ⟨sr, ih mgw mgd _ _ hsr, ctx4, hc4, pr, ih mgw mgd _ _ hpr, h⟩
    | slotsLoop chain ctx children nTotal idxs =>
      cases idxs with
      | nil => exact h
      | cons i rest =>
        simp only [fmtStep, stepSlot] at h ⊢
        by_cases htr : (i : Int) ≥ mgw
        · rw [if_pos htr] at h ⊢
          simp only [Option.some_bind, Option.bind_eq_some,
            Option.some.injEq] at h ⊢
          obtain ⟨rr, hrr, h⟩ := h
          exact ⟨rr, ih mgw mgd _ _ hrr, h⟩
        · rw [if_neg htr] at h ⊢
          simp only [Option.some_bind, Option.bind_eq_some,
            Option.some.injEq] at h ⊢
          obtain ⟨ir, ⟨child, hchild, hir⟩, rr, hrr, h⟩ := h
          exact ⟨ir, ⟨child, hchild, ih mgw mgd _ _ hir⟩, rr,
            ih mgw mgd _ _ hrr, h⟩

/-- Fuel monotonicity: a successful result is stable under more fuel. -/
theorem fmtF_mono {f g : Nat} (hfg : f ≤ g) (mgw mgd : Int) (fr : FmtFrame)
    (r : List (Int × String) × ExceptionPrintContext)
    (h : fmtF mgw mgd f fr = some r) : fmtF mgw mgd g fr = some r := by
  obtain ⟨k, rfl⟩ := Nat.exists_eq_add_of_le hfg
  clear hfg
  induction k with
  | zero => exact h
  | succ k ih => exact fmtF_mono_succ _ mgw mgd fr r ih

/-- Every node of the chain walk is no larger than the root. -/
theorem chainOutput_sizeOf_aux : ∀ (k : Nat) (e : TracebackExc),
    sizeOf e ≤ k → ∀ p ∈ chainOutput e, sizeOf p.2 ≤ sizeOf e := by
  intro k
  induction k with
  | zero => intro e h; exact absurd h (by cases e; simp_arith)
  | succ k ih =>
    intro e h p hp
    obtain ⟨cause, context, sup, excs, st, eo⟩ := e
    cases cause with
    | some c =>
      have hs : sizeOf c ≤ k := by simp_arith at h; omega
      rw [show chainOutput (.mk (some c) context sup excs st eo)
          = (some cause_message, .mk (some c) context sup excs st eo)
            :: chainOutput c from by simp [chainOutput]] at hp
      rcases List.mem_cons.mp hp with hp | hp
      · subst hp; exact le_rfl
      · have := ih c hs p hp
        have hlt : sizeOf c < sizeOf (TracebackExc.mk (some c) context sup excs st eo) := by
          simp_arith
        omega
    | none =>
      cases context with
      | some c =>
        cases sup with
        | false =>
          have hs : sizeOf c ≤ k := by simp_arith at h; omega
          rw [show chainOutput (.mk none (some c) false excs st eo)
              = (some context_message, .mk none (some c) false excs st eo)
                :: chainOutput c from by simp [chainOutput]] at hp
          rcases List.mem_cons.mp hp with hp | hp
          · subst hp; exact le_rfl
          · have := ih c hs p hp
            have hlt : sizeOf c
                < sizeOf (TracebackExc.mk none (some c) false excs st eo) := by
              simp_arith
            omega
        | true =>
          rw [show chainOutput (.mk none (some c) true excs st eo)
              = [(none, .mk none (some c) true excs st eo)] from by
                simp [chainOutput]] at hp
          rcases List.mem_cons.mp hp with hp | hp
          · subst hp; exact le_rfl
          · exact absurd hp (by simp)
      | none =>
        rw [show chainOutput (.mk none none sup excs st eo)
            = [(none, .mk none none sup excs st eo)] from by
              simp [chainOutput]] at hp
        rcases List.mem_cons.mp hp with hp | hp
        · subst hp; exact le_rfl
        · exact absurd hp (by simp)

/-- A child of a group node is strictly smaller than the node. -/
theorem child_sizeOf_lt (cause context : Option TracebackExc) (sup : Bool)
    (children : List TracebackExc) (st eo : List String)
    (c : TracebackExc) (hc : c ∈ children) :
    sizeOf c < sizeOf (TracebackExc.mk cause context sup (some children) st eo) := by
  have h1 : sizeOf c < sizeOf children := List.sizeOf_lt_of_mem hc
  simp_arith
  omega


theorem fmtF_isSome_mono {f g : Nat} (hfg : f ≤ g) {mgw mgd : Int}
    {fr : FmtFrame} (h : (fmtF mgw mgd f fr).isSome = true) :
    (fmtF mgw mgd g fr).isSome = true := by
  obtain ⟨r, hr⟩ := Option.isSome_iff_exists.mp h
  rw [fmtF_mono hfg mgw mgd fr r hr]
  rfl

theorem isSome_bind_some {α β : Type} (x : Option α) (g : α → β) :
    ((x.bind fun a => some (g a)).isSome) = x.isSome := by
  cases x <;> rfl

/-- On every tree, some fuel makes the interpreter succeed, uniformly in the
chain flag and the starting context: the chain walk reaches a node with no
followed link, the recursion over children bottoms out, the modelled
`IndexError` is unreachable because every rendered slot index is in range,
and the modelled `AssertionError` is unreachable because the slot loop
restores the depth. -/
theorem fmtF_enough : ∀ (k : Nat) (e : TracebackExc), sizeOf e ≤ k →
    ∀ (mgw mgd : Int), ∃ f : Nat, ∀ (chain : Bool) (ctx : ExceptionPrintContext),
      (fmtF mgw mgd f (.excCall chain ctx e)).isSome = true := by
  intro k
  induction k using Nat.strong_induction_on with
  | _ k IH =>
    intro e he mgw mgd
    have hchild : ∀ c : TracebackExc, sizeOf c < sizeOf e →
        ∃ f, ∀ (chain' : Bool) (ctx' : ExceptionPrintContext),
          (fmtF mgw mgd f (.excCall chain' ctx' c)).isSome = true :=
      fun c hcs => IH (sizeOf c) (by omega) c le_rfl mgw mgd
    have hslots : ∀ (children : List TracebackExc),
        (∀ c ∈ children, sizeOf c < sizeOf e) →
        ∀ (nTotal : Nat) (idxs : List Nat),
        (∀ i ∈ idxs, (i : Int) < mgw → i < children.length) →
        ∃ f, ∀ (chain' : Bool) (ctx' : ExceptionPrintContext),
          (fmtF mgw mgd f (.slotsLoop chain' ctx' children nTotal idxs)).isSome
            = true := by
      intro children hcs nTotal idxs
      induction idxs with
      | nil =>
        intro _
        refine ⟨0 + 1, fun chain' ctx' => ?_⟩
        rw [fmtF_succ]
        rfl
      | cons i rest ihr =>
        intro hbound
        obtain ⟨f1, h1⟩ := ihr (fun j hj => hbound j (List.mem_cons_of_mem _ hj))
        by_cases htr : (i : Int) ≥ mgw
        · refine ⟨f1 + 1, fun chain' ctx' => ?_⟩
          rw [fmtF_succ]
          simp only [fmtStep, stepSlot, if_pos htr, Option.some_bind]
          rw [isSome_bind_some]
          exact h1 chain' _
        · have hib : i < children.length :=
            hbound i (List.mem_cons_self i rest) (by omega)
          obtain ⟨fc, hc⟩ := hchild children[i]
            (hcs children[i] (List.getElem_mem hib))
          refine ⟨max fc f1 + 1, fun chain' ctx' => ?_⟩
          rw [fmtF_succ]
          simp only [fmtStep, stepSlot, if_neg htr,
            List.getElem?_eq_getElem hib, Option.some_bind]
          obtain ⟨ir, hir⟩ := Option.isSome_iff_exists.mp
            (fmtF_isSome_mono (le_max_left fc f1) (hc chain'
              ⟨(slotCtxA i nTotal ctx').exception_group_depth + 1,
               (slotCtxA i nTotal ctx').need_close⟩))
          rw [hir]
          simp only [Option.some_bind]
          rw [isSome_bind_some]
          exact fmtF_isSome_mono (le_max_right fc f1) (h1 chain' _)
    have hpairs : ∀ (l : List (Option String × TracebackExc)),
        (∀ p ∈ l, sizeOf p.2 ≤ sizeOf e) →
        ∃ f, ∀ (chain' : Bool) (ctx' : ExceptionPrintContext),
          (fmtF mgw mgd f (.pairsLoop chain' ctx' l)).isSome = true := by
      intro l
      induction l with
      | nil =>
        intro _
        refine ⟨0 + 1, fun chain' ctx' => ?_⟩
        rw [fmtF_succ]
        rfl
      | cons p rest ihr =>
        intro hsz
        obtain ⟨f1, h1⟩ := ihr (fun q hq => hsz q (List.mem_cons_of_mem _ hq))
        obtain ⟨msg, exc⟩ := p
        obtain ⟨cause, context, sup, excs, st, eo⟩ := exc
        cases excs with
        | none =>
          refine ⟨f1 + 1, fun chain' ctx' => ?_⟩
          rw [fmtF_succ]
          simp only [fmtStep, TracebackExc.exceptions, Option.elim, stepLeaf]
          rw [isSome_bind_some]
          exact h1 chain' ctx'
        | some children =>
          have hce : ∀ c ∈ children, sizeOf c < sizeOf e := by
            intro c hcm
            have h2 := hsz (msg, .mk cause context sup (some children) st eo)
              (List.mem_cons_self _ rest)
            have h3 := child_sizeOf_lt cause context sup children st eo c hcm
            simp only at h2
            omega
          have hbound : ∀ j ∈ List.range
              ((if (children.length : Int) ≤ mgw then (children.length : Int)
                else mgw + 1).toNat),
              (j : Int) < mgw → j < children.length := by
            intro j hj hjw
            rw [List.mem_range] at hj
            by_cases hn : (children.length : Int) ≤ mgw
            · rw [if_pos hn] at hj
              omega
            · rw [if_neg hn] at hj
              omega
          obtain ⟨fs, hs⟩ := hslots children hce
            ((if (children.length : Int) ≤ mgw then (children.length : Int)
              else mgw + 1).toNat)
            (List.range ((if (children.length : Int) ≤ mgw
              then (children.length : Int) else mgw + 1).toNat)) hbound
          refine ⟨max fs f1 + 1, fun chain' ctx' => ?_⟩
          rw [fmtF_succ]
          simp only [fmtStep, TracebackExc.exceptions, Option.elim, stepGroup]
          by_cases hd : ctx'.exception_group_depth > mgd
          · rw [if_pos hd]
            rw [isSome_bind_some]
            exact fmtF_isSome_mono (le_max_right fs f1) (h1 chain' ctx')
          · rw [if_neg hd]
            obtain ⟨sr, hsr⟩ := Option.isSome_iff_exists.mp
              (fmtF_isSome_mono (le_max_left fs f1) (hs chain'
                ⟨(if ctx'.exception_group_depth = 0 then
                    ⟨ctx'.exception_group_depth + 1, ctx'.need_close⟩
                  else ctx').exception_group_depth, false⟩))
            rw [hsr]
            simp only [Option.some_bind]
            have hsd := fmtF_depth _ mgw mgd _ _ hsr
            simp only [FmtFrame.fctx] at hsd
            by_cases ht : ctx'.exception_group_depth = 0
            · rw [if_pos ht]
              rw [if_pos (by rw [hsd, if_pos ht]; simp [ht])]
              simp only [Option.some_bind]
              rw [isSome_bind_some]
              exact fmtF_isSome_mono (le_max_right fs f1) (h1 chain' _)
            · rw [if_neg ht]
              simp only [Option.some_bind]
              rw [isSome_bind_some]
              exact fmtF_isSome_mono (le_max_right fs f1) (h1 chain' _)
    have hchain : ∀ p ∈ (chainOutput e).reverse, sizeOf p.2 ≤ sizeOf e := by
      intro p hp
      rw [List.mem_reverse] at hp
      exact chainOutput_sizeOf_aux (sizeOf e) e le_rfl p hp
    obtain ⟨ft, hft⟩ := hpairs (chainOutput e).reverse hchain
    obtain ⟨ff, hff⟩ := hpairs [(none, e)]
      (by intro p hp; rcases List.mem_cons.mp hp with hp | hp
          · subst hp; exact le_rfl
          · exact absurd hp (by simp))
    refine ⟨max ft ff + 1, fun chain ctx => ?_⟩
    rw [fmtF_succ]
    cases chain with
    | true =>
      simp only [fmtStep, if_pos rfl]
      exact fmtF_isSome_mono (le_max_left ft ff) (hft true ctx)
    | false =>
      simp only [fmtStep]
      rw [if_neg (by simp)]
      rw [show ([((none : Option String), e)]).reverse = [(none, e)] from rfl]
      exact fmtF_isSome_mono (le_max_right ft ff) (hff false ctx)


/-! ### C8: termination without error; C9: depth restoration -/

/-- C8.  For every (finite, acyclic by construction) exception tree and
either value of the chain flag, rendering terminates and raises no error:
some fuel bound exists past which the interpreter returns one fixed `some`
result — the chain walk stops, the recursion over children bottoms out, and
neither modelled exception (`IndexError`, `AssertionError`) fires. -/
theorem render_terminates :
    ∀ (chain : Bool) (e : TracebackExc),
    ∃ (f : Nat) (out : List (Int × String)) (ctx' : ExceptionPrintContext),
      ∀ g : Nat, renderFormat (f + g) chain e = some (out, ctx') := by
  intro chain e
  obtain ⟨f, h⟩ := fmtF_enough (sizeOf e) e le_rfl max_group_width max_group_depth
  obtain ⟨⟨out, ctx'⟩, hr⟩ := Option.isSome_iff_exists.mp (h chain freshCtx)
  exact ⟨f, out, ctx', fun g => fmtF_mono (Nat.le_add_right f g) _ _ _ _ hr⟩

/-- C9.  Depth restoration: any successful run of the renderer — any node,
any chain flag, any print context, any tunables — returns a context whose
`exception_group_depth` equals the value at entry; and for every input such
a successful run exists (stably under extra fuel). -/
theorem depth_restored :
    (∀ (f : Nat) (mgw mgd : Int) (chain : Bool) (ctx : ExceptionPrintContext)
      (e : TracebackExc) (r : List (Int × String) × ExceptionPrintContext),
      formatExcF f mgw mgd chain ctx e = some r →
      r.2.exception_group_depth = ctx.exception_group_depth) ∧
    (∀ (mgw mgd : Int) (chain : Bool) (ctx : ExceptionPrintContext)
      (e : TracebackExc),
    ∃ (f : Nat) (out : List (Int × String)) (nc : Bool),
      ∀ g : Nat, formatExcF (f + g) mgw mgd chain ctx e
        = some (out, ⟨ctx.exception_group_depth, nc⟩)) := by
  constructor
  · intro f mgw mgd chain ctx e r h
    exact fmtF_depth f mgw mgd _ r h
  · intro mgw mgd chain ctx e
    obtain ⟨f, h⟩ := fmtF_enough (sizeOf e) e le_rfl mgw mgd
    obtain ⟨⟨out, d', nc'⟩, hr⟩ := Option.isSome_iff_exists.mp (h chain ctx)
    have hd := fmtF_depth f mgw mgd _ _ hr
    simp only [FmtFrame.fctx] at hd
    refine ⟨f, out, nc', fun g => ?_⟩
    rw [formatExcF, fmtF_mono (Nat.le_add_right f g) _ _ _ _ hr, hd]

/-- Witness for the hypothesis-bearing part of `depth_restored`: a concrete
successful run at depth 3 returns depth 3. -/
theorem depth_restored_witness :
    (([((3 : Int), "      | A\n")],
        (⟨3, true⟩ : ExceptionPrintContext)) :
      List (Int × String) × ExceptionPrintContext).2.exception_group_depth
      = (⟨3, true⟩ : ExceptionPrintContext).exception_group_depth :=
  depth_restored.1 100 15 10 true ⟨3, true⟩ leafA _ (by decide)


/-! ### C6: zero / negative tunables -/

/-- Counterexample to "zero `max_group_depth` renders only the
depth-truncation line for any group": with `max_group_depth = 0` a top-level
group (fresh context, depth 0) is *not* depth-truncated — `0 > 0` fails — so
it renders its full frame, here the whole `grp2` output. -/
theorem zero_depth_claim_counterexample :
    formatExcF 100 15 0 true freshCtx grp2 = some (grp2Out, freshCtx) ∧
    (formatExcF 100 15 0 true freshCtx grp2).map (fun r => r.1.map Prod.snd)
      ≠ some ["... (max_group_depth is 0)\n"] := by
  exact ⟨by decide, by decide⟩

/-- C6 (amended).  Degradation at zero or negative tunables:
with `max_group_width = 0` a nonempty group at a fresh context renders only
the truncation summary slot (no numbered slots); with `max_group_depth = 0`
a group reached at depth `> 0` renders only the depth-truncation line, and
with `max_group_depth < 0` even a top-level group at a fresh context renders
only that line; no zero or negative value of either tunable ever makes the
render call fail. -/
theorem zero_tunables_degrade :
    (∀ (f : Nat) (mgd : Int) (c : TracebackExc) (cs : List TracebackExc)
        (eo : List String), 0 ≤ mgd →
      formatExcF (f + 4) 0 mgd true freshCtx
          (.mk none none false (some (c :: cs)) [] eo)
        = some ((eo.map (fun t =>
              ((1 : Int), ExceptionPrintContext.emitOne ⟨1, false⟩ none t)))
            ++ [((1 : Int),
                  ExceptionPrintContext.indent ⟨1, true⟩ ++ "+-"
                    ++ "+---------------- " ++ "..." ++ " ----------------\n"),
                ((2 : Int), ExceptionPrintContext.emitOne ⟨2, true⟩ none
                  ("and " ++ toString (((c :: cs).length : Int))
                    ++ " more exception"
                    ++ (if 1 < ((c :: cs).length : Int) then "s" else "")
                    ++ "\n")),
                ((2 : Int), ExceptionPrintContext.indent ⟨2, false⟩
                  ++ "+------------------------------------\n")],
            freshCtx)) ∧
    (∀ (f : Nat) (mgw : Int) (chain : Bool) (ctx : ExceptionPrintContext)
        (children : List TracebackExc) (st eo : List String),
      0 < ctx.exception_group_depth →
      formatExcF (f + 3) mgw 0 chain ctx
          (.mk none none false (some children) st eo)
        = some (tagD ctx
            (ctx.emit ["... (max_group_depth is 0)\n"] none), ctx)) ∧
    (∀ (f : Nat) (mgw mgd : Int) (chain : Bool)
        (children : List TracebackExc) (st eo : List String), mgd < 0 →
      formatExcF (f + 3) mgw mgd chain freshCtx
          (.mk none none false (some children) st eo)
        = some ([((0 : Int), ExceptionPrintContext.emitOne freshCtx none
            ("... (max_group_depth is " ++ toString mgd ++ ")\n"))],
            freshCtx)) ∧
    (∀ (mgw mgd : Int) (chain : Bool) (e : TracebackExc),
      ∃ (f : Nat) (r : List (Int × String) × ExceptionPrintContext),
        ∀ g, f ≤ g → formatExcF g mgw mgd chain freshCtx e = some r) := by
  refine ⟨?_, ?_, ?_, ?_⟩
  · intro f mgd c cs eo hmgd
    have hn0 : ¬ (((c :: cs).length : Int) ≤ (0 : Int)) := by simp
    have hd0 : ¬ ((0 : Int) > mgd) := by omega
    have hc : chainOutput (.mk none none false (some (c :: cs)) [] eo)
        = [(none, .mk none none false (some (c :: cs)) [] eo)] := rfl
    simp only [formatExcF, fmtF_succ, fmtStep, stepGroup, stepSlot, hc,
      ite_self, List.reverse_cons, List.reverse_nil, List.nil_append,
      TracebackExc.exceptions, TracebackExc.stack, TracebackExc.exc_only,
      Option.elim, freshCtx, if_neg hn0, if_neg hd0]
    norm_num [fmtF_succ, fmtStep, stepSlot, slotCtxA, slotClose, tagD,
      ExceptionPrintContext.emit, ExceptionPrintContext.indent,
      List.map_map, Function.comp, List.range_succ, List.range_zero]
  · intro f mgw chain ctx children st eo h
    have hc : chainOutput (.mk none none false (some children) st eo)
        = [(none, .mk none none false (some children) st eo)] := rfl
    simp only [formatExcF, fmtF_succ, fmtStep, stepGroup, hc, ite_self,
      List.reverse_cons, List.reverse_nil, List.nil_append,
      TracebackExc.exceptions, Option.elim, if_pos (by omega : ctx.exception_group_depth > (0 : Int))]
    simp
    rw [show ("... (max_group_depth is " ++ toString (0 : Int) ++ ")\n")
        = "... (max_group_depth is 0)\n" from by decide]
  · intro f mgw mgd chain children st eo h
    have hc : chainOutput (.mk none none false (some children) st eo)
        = [(none, .mk none none false (some children) st eo)] := rfl
    simp only [formatExcF, fmtF_succ, fmtStep, stepGroup, hc, ite_self,
      List.reverse_cons, List.reverse_nil, List.nil_append,
      TracebackExc.exceptions, Option.elim, freshCtx,
      if_pos (by omega : (0 : Int) > mgd)]
    simp [tagD, ExceptionPrintContext.emit]
  · intro mgw mgd chain e
    obtain ⟨f, h⟩ := fmtF_enough (sizeOf e) e le_rfl mgw mgd
    obtain ⟨r, hr⟩ := Option.isSome_iff_exists.mp (h chain freshCtx)
    exact ⟨f, r, fun g hg => fmtF_mono hg _ _ _ _ hr⟩

/-- Witness for `zero_tunables_degrade`: its parts applied at concrete
inputs, each hypothesis discharged there. -/
theorem zero_tunables_degrade_witness :
    formatExcF 4 0 10 true freshCtx
        (.mk none none false (some [leafA]) [] ["EG\n"])
      = some ((["EG\n"].map (fun t =>
            ((1 : Int), ExceptionPrintContext.emitOne ⟨1, false⟩ none t)))
          ++ [((1 : Int),
                ExceptionPrintContext.indent ⟨1, true⟩ ++ "+-"
                  ++ "+---------------- " ++ "..." ++ " ----------------\n"),
              ((2 : Int), ExceptionPrintContext.emitOne ⟨2, true⟩ none
                ("and " ++ toString ((([leafA] : List TracebackExc).length : Int))
                  ++ " more exception"
                  ++ (if 1 < (([leafA] : List TracebackExc).length : Int)
                      then "s" else "")
                  ++ "\n")),
              ((2 : Int), ExceptionPrintContext.indent ⟨2, false⟩
                ++ "+------------------------------------\n")],
          freshCtx) ∧
    formatExcF 3 15 0 true ⟨2, false⟩
        (.mk none none false (some [leafA]) [] ["EG\n"])
      = some (tagD ⟨2, false⟩ (ExceptionPrintContext.emit ⟨2, false⟩
          ["... (max_group_depth is 0)\n"] none), ⟨2, false⟩) ∧
    formatExcF 3 15 (-1) true freshCtx
        (.mk none none false (some [leafA]) [] ["EG\n"])
      = some ([((0 : Int), ExceptionPrintContext.emitOne freshCtx none
          ("... (max_group_depth is " ++ toString (-1 : Int) ++ ")\n"))],
          freshCtx) :=
  ⟨zero_tunables_degrade.1 0 10 leafA [] ["EG\n"] (by decide),
   zero_tunables_degrade.2.1 0 15 true ⟨2, false⟩ [leafA] [] ["EG\n"] (by decide),
   zero_tunables_degrade.2.2.1 0 15 (-1) true [leafA] [] ["EG\n"] (by decide)⟩


/-! ### Lines of rendered chunks -/

theorem strData_append (a b : String) : (a ++ b).data = a.data ++ b.data := rfl

/-- One unfolding step of `splitC`. -/
theorem splitC_cons (c : Char) (rest : List Char) :
    splitC (c :: rest) = if c = '\n' then ['\n'] :: splitC rest
      else match splitC rest with
        | [] => [[c]]
        | l :: ls => (c :: l) :: ls := by
  simp [splitC]

/-- Splitting after a newline-free block followed by a newline. -/
theorem splitC_line : ∀ (b : List Char), '\n' ∉ b → ∀ (rest : List Char),
    splitC (b ++ '\n' :: rest) = (b ++ ['\n']) :: splitC rest := by
  intro b
  induction b with
  | nil => intro _ rest; simp [splitC]
  | cons c b' ih =>
    intro h rest
    have hc : c ≠ '\n' := fun hh => h (hh ▸ List.mem_cons_self c b')
    have hb : '\n' ∉ b' := fun hh => h (List.mem_cons_of_mem _ hh)
    rw [List.cons_append, splitC_cons, if_neg hc, ih hb rest]
    rfl

/-- A nonempty newline-free text is a single line. -/
theorem splitC_no_nl : ∀ (b : List Char), '\n' ∉ b → b ≠ [] → splitC b = [b] := by
  intro b
  induction b with
  | nil => intro _ hne; exact absurd rfl hne
  | cons c b' ih =>
    intro h _
    have hc : c ≠ '\n' := fun hh => h (hh ▸ List.mem_cons_self c b')
    have hb : '\n' ∉ b' := fun hh => h (List.mem_cons_of_mem _ hh)
    cases b' with
    | nil => simp [splitC, hc]
    | cons d b'' => rw [splitC_cons, if_neg hc, ih hb (by simp)]

/-- The shape invariant of `splitC`: every element is nonempty; every element
except the last ends with `'\n'` and has no interior `'\n'`; the last may
lack the trailing `'\n'`. -/
def AllLines : List (List Char) → Prop
  | [] => True
  | [l] => l ≠ [] ∧ '\n' ∉ l.dropLast
  | l :: ls => (∃ b, l = b ++ ['\n'] ∧ '\n' ∉ b) ∧ AllLines ls

theorem allLines_splitC : ∀ x : List Char, AllLines (splitC x) := by
  intro x
  induction x with
  | nil => simp [splitC, AllLines]
  | cons c rest ih =>
    by_cases hc : c = '\n'
    · subst hc
      simp only [splitC, if_pos rfl]
      cases hsp : splitC rest with
      | nil => simp [AllLines]
      | cons q qs =>
        rw [hsp] at ih
        exact ⟨⟨[], by simp⟩, ih⟩
    · simp only [splitC, if_neg hc]
      cases hsp : splitC rest with
      | nil => simp [AllLines]
      | cons q qs =>
        rw [hsp] at ih
        cases qs with
        | nil =>
          simp only [AllLines] at ih ⊢
          obtain ⟨hq, hqd⟩ := ih
          obtain ⟨qh, qt, rfl⟩ : ∃ qh qt, q = qh :: qt := by
            cases q with
            | nil => exact absurd rfl hq
            | cons qh qt => exact ⟨qh, qt, rfl⟩
          refine ⟨by simp, ?_⟩
          rw [List.dropLast_cons₂]
          intro hmem
          rcases List.mem_cons.mp hmem with hmem | hmem
          · exact hc hmem.symm
          · exact hqd hmem
        | cons q2 qs' =>
          simp only [AllLines] at ih ⊢
          obtain ⟨⟨b, rfl, hbn⟩, hrest⟩ := ih
          refine ⟨⟨c :: b, by simp, ?_⟩, hrest⟩
          intro hmem
          rcases List.mem_cons.mp hmem with hmem | hmem
          · exact hc hmem.symm
          · exact hbn hmem

/-- Prefixing every line of a well-shaped line list with a newline-free
prefix and rejoining splits back to exactly the prefixed lines. -/
theorem splitC_join_prefixed : ∀ (pre : List Char), '\n' ∉ pre →
    ∀ (ls : List (List Char)), AllLines ls →
    splitC (joinL (ls.map (fun l => pre ++ l))) = ls.map (fun l => pre ++ l) := by
  intro pre hpre ls
  induction ls with
  | nil => intro _; simp [joinL, splitC]
  | cons l ls ih =>
    intro hall
    cases ls with
    | nil =>
      simp only [AllLines] at hall
      obtain ⟨hne, hnd⟩ := hall
      simp only [List.map_cons, List.map_nil, joinL, List.append_nil]
      obtain ⟨b, last, rfl⟩ : ∃ b last, l = b ++ [last] :=
        ⟨l.dropLast, l.getLast hne, (List.dropLast_append_getLast hne).symm⟩
      rw [List.dropLast_concat] at hnd
      by_cases hl : last = '\n'
      · subst hl
        rw [show pre ++ (b ++ ['\n']) = (pre ++ b) ++ '\n' :: [] from by simp]
        rw [splitC_line (pre ++ b)
          (by intro hm; rcases List.mem_append.mp hm with hm | hm
              · exact hpre hm
              · exact hnd hm) []]
        simp [splitC]
      · rw [splitC_no_nl (pre ++ (b ++ [last]))
          (by intro hm
              rcases List.mem_append.mp hm with hm | hm
              · exact hpre hm
              rcases List.mem_append.mp hm with hm | hm
              · exact hnd hm
              · rw [List.mem_singleton] at hm; exact hl hm.symm)
          (by simp)]
    | cons l2 ls' =>
      simp only [AllLines] at hall
      obtain ⟨⟨b, rfl, hbn⟩, hrest⟩ := hall
      simp only [List.map_cons, joinL]
      rw [show (pre ++ (b ++ ['\n']))
            ++ (pre ++ l2 ++ joinL (List.map (fun l => pre ++ l) ls'))
          = (pre ++ b) ++ '\n'
            :: (pre ++ l2 ++ joinL (List.map (fun l => pre ++ l) ls')) from by simp]
      rw [splitC_line (pre ++ b)
        (by intro hm; rcases List.mem_append.mp hm with hm | hm
            · exact hpre hm
            · exact hbn hm)]
      have := ih hrest
      simp only [List.map_cons, joinL] at this
      rw [this]
      simp

/-- Every line of a `textwrap.indent`-ed text is the prefix followed by the
corresponding original line (the prefix must be newline-free). -/
theorem splitC_pyIndent (pre t : String) (h : '\n' ∉ pre.data) :
    splitC (pyIndent pre t).data = (splitC t.data).map (fun l => pre.data ++ l) :=
  splitC_join_prefixed pre.data h (splitC t.data) (allLines_splitC t.data)

theorem isPrefixOf_self_append : ∀ (a b : List Char),
    List.isPrefixOf a (a ++ b) = true := by
  intro a b
  induction a with
  | nil => simp [List.isPrefixOf]
  | cons c a' ih => simp [List.isPrefixOf, ih]


/-! ### Digits of slot titles are newline-free -/

theorem digitChar_ne_nl (n : Nat) : Nat.digitChar n ≠ '\n' := by
  rcases Nat.lt_or_ge n 16 with h | h
  · interval_cases n <;> decide
  · unfold Nat.digitChar
    iterate 16 rw [if_neg (by omega)]
    decide

theorem toDigitsCore_ne_nl : ∀ (fuel n : Nat) (acc : List Char),
    (∀ c ∈ acc, c ≠ '\n') →
    ∀ c ∈ Nat.toDigitsCore 10 fuel n acc, c ≠ '\n' := by
  intro fuel
  induction fuel with
  | zero => intro n acc hacc; simpa [Nat.toDigitsCore] using hacc
  | succ f ih =>
    intro n acc hacc c hc
    simp only [Nat.toDigitsCore] at hc
    split at hc
    · rcases List.mem_cons.mp hc with rfl | hc
      · exact digitChar_ne_nl _
      · exact hacc c hc
    · refine ih (n / 10) _ ?_ c hc
      intro x hx
      rcases List.mem_cons.mp hx with rfl | hx
      · exact digitChar_ne_nl _
      · exact hacc x hx

theorem repr_ne_nl (n : Nat) : '\n' ∉ (Nat.repr n).data := by
  intro hmem
  exact toDigitsCore_ne_nl (n + 1) n [] (by simp) '\n' hmem rfl

/-! ### C7: the indent / emit contract -/

theorem indent_no_nl (c : ExceptionPrintContext) : '\n' ∉ c.indent.data := by
  intro hm
  have hm2 : '\n' ∈ List.replicate (2 * c.exception_group_depth).toNat ' ' := hm
  exact absurd (List.eq_of_mem_replicate hm2) (by decide)

/-- C7.  `indent()` is `2 * depth` spaces (for the depths the renderer
reaches, `0 ≤ depth`); `emit` maps its one-block body over the given blocks;
and `emit`'s one-block body prefixes *every* line of the block — empty lines
included — with `indent()` followed by the margin character (default `"|"`)
plus one space when the depth is nonzero, and with just `indent()`
otherwise. -/
theorem emit_contract (ctx : ExceptionPrintContext)
    (h : 0 ≤ ctx.exception_group_depth) :
    ((ctx.indent.data.length : Int) = 2 * ctx.exception_group_depth ∧
      ∀ ch ∈ ctx.indent.data, ch = ' ') ∧
    (∀ (m : Option String) (texts : List String),
      ctx.emit texts m = texts.map (ctx.emitOne m)) ∧
    (∀ (m : Option String) (t : String), '\n' ∉ (m.getD "|").data →
      splitC (ctx.emitOne m t).data
        = (splitC t.data).map (fun l =>
            (if ctx.exception_group_depth ≠ 0 then
                ctx.indent ++ m.getD "|" ++ " "
              else ctx.indent).data ++ l)) := by
  refine ⟨⟨?_, ?_⟩, fun m texts => rfl, fun m t hm => ?_⟩
  · simp only [ExceptionPrintContext.indent, spacesI, List.length_replicate]
    omega
  · intro ch hch
    have hch2 : ch ∈ List.replicate (2 * ctx.exception_group_depth).toNat ' ' := hch
    exact List.eq_of_mem_replicate hch2
  · have hnl : '\n' ∉ (if ctx.exception_group_depth ≠ 0 then
        ctx.indent ++ m.getD "|" ++ " " else ctx.indent).data := by
      split
      · intro hmem
        rw [strData_append, strData_append] at hmem
        rcases List.mem_append.mp hmem with hmem | hmem
        · rcases List.mem_append.mp hmem with hmem | hmem
          · exact indent_no_nl ctx hmem
          · exact hm hmem
        · simp at hmem
      · exact indent_no_nl ctx
    exact splitC_pyIndent _ t hnl

/-- Witness for `emit_contract` at depth 2, margin defaulted, on a block
with an interior empty line. -/
theorem emit_contract_witness :
    ((0 : Int) ≤ (⟨2, false⟩ : ExceptionPrintContext).exception_group_depth) ∧
    splitC ((⟨2, false⟩ : ExceptionPrintContext).emitOne none "a\n\nb").data
      = (splitC ("a\n\nb").data).map (fun l =>
          (if (⟨2, false⟩ : ExceptionPrintContext).exception_group_depth ≠ 0 then
              (⟨2, false⟩ : ExceptionPrintContext).indent
                ++ (none : Option String).getD "|" ++ " "
            else (⟨2, false⟩ : ExceptionPrintContext).indent).data ++ l) :=
  ⟨by decide, (emit_contract ⟨2, false⟩ (by decide)).2.2 none "a\n\nb" (by decide)⟩


/-! ### C5: the indentation invariant -/

/-- The amended shape of one rendered line carrying depth tag `d`: `2*d`
spaces followed by `"| "` (ordinary emitted text), or by `"+ "` only at
depth 1 (the top-level group traceback header), or by `"+-"` (a first-slot
header or a closing frame), or by `"  +"` (a later-slot header). -/
def lineOK (d : Int) (l : List Char) : Prop :=
  List.isPrefixOf ((spacesI (2 * d)).data ++ "| ".data) l = true ∨
  (List.isPrefixOf ((spacesI (2 * d)).data ++ "+ ".data) l = true ∧ d = 1) ∨
  List.isPrefixOf ((spacesI (2 * d)).data ++ "+-".data) l = true ∨
  List.isPrefixOf ((spacesI (2 * d)).data ++ "  +".data) l = true

/-- Every line of a chunk yielded with a positive depth tag is well
indented. -/
def chunkOK (p : Int × String) : Prop :=
  0 < p.1 → ∀ l ∈ splitC p.2.data, lineOK p.1 l

theorem mem_tagD_emit (c : ExceptionPrintContext) (lst : List String)
    (m : Option String) (p : Int × String)
    (hp : p ∈ tagD c (c.emit lst m)) :
    ∃ t ∈ lst, p = (c.exception_group_depth, c.emitOne m t) := by
  simp only [tagD, ExceptionPrintContext.emit, List.map_map, List.mem_map,
    Function.comp] at hp
  obtain ⟨t, ht, hpt⟩ := hp
  exact ⟨t, ht, hpt.symm⟩

theorem emitOne_margin (c : ExceptionPrintContext) (m : Option String)
    (t : String) (hne : c.exception_group_depth ≠ 0) :
    c.emitOne m t = pyIndent (c.indent ++ m.getD "|" ++ " ") t := by
  simp only [ExceptionPrintContext.emitOne, if_pos hne]

/-- The lines of one margined `emit` block at nonzero depth. -/
theorem lines_emitOne (c : ExceptionPrintContext) (m : Option String)
    (t : String) (hne : c.exception_group_depth ≠ 0)
    (hm : '\n' ∉ (m.getD "|").data) :
    splitC (c.emitOne m t).data
      = (splitC t.data).map (fun l =>
          (c.indent ++ m.getD "|" ++ " ").data ++ l) := by
  rw [emitOne_margin c m t hne]
  refine splitC_pyIndent _ t ?_
  rw [strData_append, strData_append]
  intro hmem
  rcases List.mem_append.mp hmem with hmem | hmem
  · rcases List.mem_append.mp hmem with hmem | hmem
    · exact indent_no_nl c hmem
    · exact hm hmem
  · simp at hmem

theorem chunkOK_emit_bar (c : ExceptionPrintContext) (t : String) :
    chunkOK (c.exception_group_depth, c.emitOne none t) := by
  intro hd l hl
  replace hd : 0 < c.exception_group_depth := hd
  replace hl : l ∈ splitC (c.emitOne none t).data := hl
  show lineOK c.exception_group_depth l
  have hne : c.exception_group_depth ≠ 0 := by omega
  rw [lines_emitOne c none t hne (by decide)] at hl
  obtain ⟨l0, hl0, rfl⟩ := List.mem_map.mp hl
  refine Or.inl ?_
  rw [show (c.indent ++ (none : Option String).getD "|" ++ " ").data ++ l0
      = ((spacesI (2 * c.exception_group_depth)).data ++ "| ".data) ++ l0 from by
    simp only [strData_append, List.append_assoc]
    rfl]
  exact isPrefixOf_self_append _ _

theorem chunkOK_emit_plus (c : ExceptionPrintContext) (t : String)
    (hdep : c.exception_group_depth = 1) :
    chunkOK (c.exception_group_depth, c.emitOne (some "+") t) := by
  intro _hd l hl
  replace hl : l ∈ splitC (c.emitOne (some "+") t).data := hl
  show lineOK c.exception_group_depth l
  have hne : c.exception_group_depth ≠ 0 := by omega
  rw [lines_emitOne c (some "+") t hne (by decide)] at hl
  obtain ⟨l0, hl0, rfl⟩ := List.mem_map.mp hl
  refine Or.inr (Or.inl ⟨?_, hdep⟩)
  rw [show (c.indent ++ (some "+" : Option String).getD "|" ++ " ").data ++ l0
      = ((spacesI (2 * c.exception_group_depth)).data ++ "+ ".data) ++ l0 from by
    simp only [strData_append, List.append_assoc]
    rfl]
  exact isPrefixOf_self_append _ _

theorem chunkOK_header (c : ExceptionPrintContext) (i : Nat) (title : String)
    (hti : '\n' ∉ title.data) :
    chunkOK (c.exception_group_depth,
      c.indent ++ (if i = 0 then "+-" else "  ")
        ++ "+---------------- " ++ title ++ " ----------------\n") := by
  intro _hd l hl
  replace hl : l ∈ splitC (c.indent ++ (if i = 0 then "+-" else "  ")
      ++ "+---------------- " ++ title ++ " ----------------\n").data := hl
  show lineOK c.exception_group_depth l
  by_cases hi : i = 0
  · rw [if_pos hi] at hl
    rw [show (c.indent ++ "+-" ++ "+---------------- " ++ title
          ++ " ----------------\n").data
        = (c.indent.data ++ ("+-".data ++ ("+---------------- ".data
            ++ (title.data ++ " ----------------".data)))) ++ '\n' :: [] from by
      simp only [strData_append, List.append_assoc]
      rfl] at hl
    rw [splitC_line _ (by
      intro hmem
      rcases List.mem_append.mp hmem with hmem | hmem
      · exact indent_no_nl c hmem
      rcases List.mem_append.mp hmem with hmem | hmem
      · exact absurd hmem (by decide)
      rcases List.mem_append.mp hmem with hmem | hmem
      · exact absurd hmem (by decide)
      rcases List.mem_append.mp hmem with hmem | hmem
      · exact hti hmem
      · exact absurd hmem (by decide)) []] at hl
    simp only [splitC, List.mem_singleton] at hl
    subst hl
    refine Or.inr (Or.inr (Or.inl ?_))
    rw [show (c.indent.data ++ ("+-".data ++ ("+---------------- ".data
            ++ (title.data ++ " ----------------".data)))) ++ ['\n']
        = ((spacesI (2 * c.exception_group_depth)).data ++ "+-".data)
          ++ ("+---------------- ".data
            ++ (title.data ++ (" ----------------".data ++ ['\n']))) from by
      simp only [List.append_assoc]
      rfl]
    exact isPrefixOf_self_append _ _
  · rw [if_neg hi] at hl
    rw [show (c.indent ++ "  " ++ "+---------------- " ++ title
          ++ " ----------------\n").data
        = (c.indent.data ++ ("  ".data ++ ("+---------------- ".data
            ++ (title.data ++ " ----------------".data)))) ++ '\n' :: [] from by
      simp only [strData_append, List.append_assoc]
      rfl] at hl
    rw [splitC_line _ (by
      intro hmem
      rcases List.mem_append.mp hmem with hmem | hmem
      · exact indent_no_nl c hmem
      rcases List.mem_append.mp hmem with hmem | hmem
      · exact absurd hmem (by decide)
      rcases List.mem_append.mp hmem with hmem | hmem
      · exact absurd hmem (by decide)
      rcases List.mem_append.mp hmem with hmem | hmem
      · exact hti hmem
      · exact absurd hmem (by decide)) []] at hl
    simp only [splitC, List.mem_singleton] at hl
    subst hl
    refine Or.inr (Or.inr (Or.inr ?_))
    rw [show (c.indent.data ++ ("  ".data ++ ("+---------------- ".data
            ++ (title.data ++ " ----------------".data)))) ++ ['\n']
        = ((spacesI (2 * c.exception_group_depth)).data ++ "  +".data)
          ++ ("---------------- ".data
            ++ (title.data ++ (" ----------------".data ++ ['\n']))) from by
      simp only [List.append_assoc]
      rfl]
    exact isPrefixOf_self_append _ _

theorem chunkOK_closing (c : ExceptionPrintContext) :
    chunkOK (c.exception_group_depth,
      c.indent ++ "+------------------------------------\n") := by
  intro _hd l hl
  replace hl : l ∈ splitC (c.indent ++ "+------------------------------------\n").data := hl
  show lineOK c.exception_group_depth l
  rw [show (c.indent ++ "+------------------------------------\n").data
      = (c.indent.data ++ "+------------------------------------".data) ++ '\n' :: [] from by
    simp only [strData_append, List.append_assoc]
    rfl] at hl
  rw [splitC_line _ (by
    intro hmem
    rcases List.mem_append.mp hmem with hmem | hmem
    · exact indent_no_nl c hmem
    · exact absurd hmem (by decide)) []] at hl
  simp only [splitC, List.mem_singleton] at hl
  subst hl
  refine Or.inr (Or.inr (Or.inl ?_))
  rw [show (c.indent.data ++ "+------------------------------------".data) ++ ['\n']
      = ((spacesI (2 * c.exception_group_depth)).data ++ "+-".data)
        ++ ("-----------------------------------".data ++ ['\n']) from by
    simp only [List.append_assoc]
    rfl]
  exact isPrefixOf_self_append _ _


/-- Every chunk a successful interpreter run yields is well indented. -/
theorem fmtF_chunkOK : ∀ (f : Nat) (mgw mgd : Int) (fr : FmtFrame)
    (r : List (Int × String) × ExceptionPrintContext),
    fmtF mgw mgd f fr = some r → ∀ p ∈ r.1, chunkOK p := by
  intro f
  induction f with
  | zero => intro mgw mgd fr r h; rw [fmtF_zero] at h; cases h
  | succ f ih =>
    intro mgw mgd fr r h
    rw [fmtF_succ] at h
    cases fr with
    | excCall chain ctx e =>
      simp only [fmtStep] at h
      exact ih mgw mgd _ _ h
    | pairsLoop chain ctx l =>
      cases l with
      | nil =>
        simp only [fmtStep] at h
        cases h
        intro p hp
        simp at hp
      | cons pr0 rest =>
        obtain ⟨msg, exc⟩ := pr0
        obtain ⟨cause, context, sup, excs, st, eo⟩ := exc
        cases excs with
        | none =>
          simp only [fmtStep, TracebackExc.exceptions, Option.elim, stepLeaf,
            TracebackExc.stack, TracebackExc.exc_only,
            Option.bind_eq_some, Option.some.injEq] at h
          obtain ⟨pr, hpr, h⟩ := h
          subst h
          intro p hp
          simp only [List.mem_append] at hp
          rcases hp with ((hp | hp) | hp) | hp
          · cases msg with
            | none => simp [Option.elim] at hp
            | some m =>
              simp only [Option.elim] at hp
              obtain ⟨t, ht, rfl⟩ := mem_tagD_emit _ _ _ _ hp
              exact chunkOK_emit_bar ctx t
          · split at hp
            · simp at hp
            · rcases List.mem_append.mp hp with hp | hp
              · obtain ⟨t, ht, rfl⟩ := mem_tagD_emit _ _ _ _ hp
                exact chunkOK_emit_bar ctx t
              · obtain ⟨t, ht, rfl⟩ := mem_tagD_emit _ _ _ _ hp
                exact chunkOK_emit_bar ctx t
          · obtain ⟨t, ht, rfl⟩ := mem_tagD_emit _ _ _ _ hp
            exact chunkOK_emit_bar ctx t
          · exact ih mgw mgd _ _ hpr p hp
        | some children =>
          simp only [fmtStep, TracebackExc.exceptions, Option.elim, stepGroup,
            TracebackExc.stack, TracebackExc.exc_only] at h
          by_cases hdp : ctx.exception_group_depth > mgd
          · rw [if_pos hdp] at h
            simp only [Option.bind_eq_some, Option.some.injEq] at h
            obtain ⟨pr, hpr, h⟩ := h
            subst h
            intro p hp
            simp only [List.mem_append] at hp
            rcases hp with (hp | hp) | hp
            · cases msg with
              | none => simp [Option.elim] at hp
              | some m =>
                simp only [Option.elim] at hp
                obtain ⟨t, ht, rfl⟩ := mem_tagD_emit _ _ _ _ hp
                exact chunkOK_emit_bar ctx t
            · obtain ⟨t, ht, rfl⟩ := mem_tagD_emit _ _ _ _ hp
              exact chunkOK_emit_bar ctx t
            · exact ih mgw mgd _ _ hpr p hp
          · rw [if_neg hdp] at h
            simp only [Option.bind_eq_some, Option.some.injEq] at h
            obtain ⟨sr, hsr, ctx4, hc4, pr, hpr, h⟩ := h
            subst h
            intro p hp
            simp only [List.mem_append] at hp
            rcases hp with (((hp | hp) | hp) | hp) | hp
            · cases msg with
              | none => simp [Option.elim] at hp
              | some m =>
                simp only [Option.elim] at hp
                obtain ⟨t, ht, rfl⟩ := mem_tagD_emit _ _ _ _ hp
                exact chunkOK_emit_bar ctx t
            · split at hp
              · simp at hp
              · rcases List.mem_append.mp hp with hp | hp
                · by_cases ht0 : ctx.exception_group_depth = 0
                  · simp only [if_pos ht0] at hp
                    obtain ⟨t, ht, rfl⟩ := mem_tagD_emit _ _ _ _ hp
                    refine chunkOK_emit_plus _ t ?_
                    simp [ht0]
                  · simp only [if_neg ht0] at hp
                    obtain ⟨t, ht, rfl⟩ := mem_tagD_emit _ _ _ _ hp
                    exact chunkOK_emit_bar ctx t
                · obtain ⟨t, ht, rfl⟩ := mem_tagD_emit _ _ _ _ hp
                  exact chunkOK_emit_bar _ t
            · obtain ⟨t, ht, rfl⟩ := mem_tagD_emit _ _ _ _ hp
              exact chunkOK_emit_bar _ t
            · exact ih mgw mgd _ _ hsr p hp
            · exact ih mgw mgd _ _ hpr p hp
    | slotsLoop chain ctx children nTotal idxs =>
      cases idxs with
      | nil =>
        simp only [fmtStep] at h
        cases h
        intro p hp
        simp at hp
      | cons i rest =>
        simp only [fmtStep, stepSlot] at h
        by_cases htr : (i : Int) ≥ mgw
        · simp only [if_pos htr] at h
          simp only [Option.some_bind, Option.bind_eq_some,
            Option.some.injEq] at h
          obtain ⟨rr, hrr, h⟩ := h
          subst h
          intro p hp
          simp only [List.mem_append] at hp
          rcases hp with ((hp | hp) | hp) | hp
          · rw [List.mem_singleton] at hp
            subst hp
            exact chunkOK_header _ i _ (by decide)
          · obtain ⟨t, ht, rfl⟩ := mem_tagD_emit _ _ _ _ hp
            exact chunkOK_emit_bar _ t
          · unfold slotClose at hp
            split at hp
            · rw [List.mem_singleton] at hp
              subst hp
              exact chunkOK_closing _
            · simp at hp
          · exact ih mgw mgd _ _ hrr p hp
        · simp only [if_neg htr] at h
          simp only [Option.some_bind, Option.bind_eq_some,
            Option.some.injEq] at h
          obtain ⟨ir, ⟨child, hchild, hir⟩, rr, hrr, h⟩ := h
          subst h
          intro p hp
          simp only [List.mem_append] at hp
          rcases hp with ((hp | hp) | hp) | hp
          · rw [List.mem_singleton] at hp
            subst hp
            exact chunkOK_header _ i _ (repr_ne_nl (i + 1))
          · exact ih mgw mgd _ _ hir p hp
          · unfold slotClose at hp
            split at hp
            · rw [List.mem_singleton] at hp
              subst hp
              exact chunkOK_closing _
            · simp at hp
          · exact ih mgw mgd _ _ hrr p hp


/-- Counterexample to the claimed indentation rule: the first-slot header of
`grp2`, yielded at depth 1, starts with 2 spaces followed by `"+-"` — the
box-drawing corner — and not by `"| "`, and it is not the top-level group
traceback header (that header line would contain `"Traceback"`), so the
`"+ "` allowance does not cover it either. -/
theorem indentation_claim_counterexample :
    (renderFormat 100 true grp2 = some (grp2Out, freshCtx)) ∧
    (((1 : Int), "  +-+---------------- 1 ----------------\n") ∈ grp2Out) ∧
    ((0 : Int) < 1) ∧
    (List.isPrefixOf "  ".data
      "  +-+---------------- 1 ----------------\n".data = true) ∧
    (List.isPrefixOf "  | ".data
      "  +-+---------------- 1 ----------------\n".data = false) ∧
    (List.isPrefixOf "  + ".data
      "  +-+---------------- 1 ----------------\n".data = false) ∧
    ¬ List.IsInfix "Traceback".data
      "  +-+---------------- 1 ----------------\n".data := by
  refine ⟨by decide, by decide, by decide, by decide, by decide, by decide,
    by decide⟩

/-- C5 (amended).  Every line of every chunk a successful render yields with
a positive depth tag `d` begins with `2*d` spaces followed by `"| "`, or by
`"+ "` (only at depth 1: the top-level group traceback header), or by the
box-drawing starters `"+-"` (first-slot header, closing frame) or `"  +"`
(later-slot header); blank lines within multi-line blocks included, since
every line of an emitted block is prefixed. -/
theorem indentation_invariant :
    ∀ (f : Nat) (mgw mgd : Int) (chain : Bool) (ctx : ExceptionPrintContext)
      (e : TracebackExc) (r : List (Int × String) × ExceptionPrintContext),
      formatExcF f mgw mgd chain ctx e = some r →
      ∀ p ∈ r.1, 0 < p.1 → ∀ l ∈ splitC p.2.data, lineOK p.1 l := by
  intro f mgw mgd chain ctx e r h p hp
  exact fmtF_chunkOK f mgw mgd _ r h p hp

/-- Witness for `indentation_invariant`: the concrete `grp2` run. -/
theorem indentation_invariant_witness :
    (formatExcF 100 15 10 true freshCtx grp2 = some (grp2Out, freshCtx)) ∧
    ∀ p ∈ grp2Out, 0 < p.1 → ∀ l ∈ splitC p.2.data, lineOK p.1 l := by
  have h1 : formatExcF 100 15 10 true freshCtx grp2
      = some (grp2Out, freshCtx) := by decide
  exact ⟨h1, indentation_invariant 100 15 10 true freshCtx grp2
    (grp2Out, freshCtx) h1⟩

end ExcGroupFmt
